import Mathlib

/-!
Verification of the synchronization engine of the opencode-sync repository.

The development shallowly embeds the Go code of internal/sync/sync.go and its
collaborators (internal/paths, internal/config, internal/crypto, internal/cli)
as executable Lean definitions, and proves or refutes the frozen claims about
the natural-language specification.

Conventions of the embedding:
- the host OS is the unix build: the path separator is the slash character and
  a backslash in a glob pattern is an escape, as in Go path/filepath for unix;
- byte strings are modelled as Lean strings, files as content plus mode bits;
- file trees are association lists from paths to files, and OS file operations
  are explicit tree updates;
- external collaborators (the git client, the encryption provider, the content
  hash, file modification times) are capability parameters, exactly as the
  code consumes them through interfaces;
- the loops of Go path/filepath Match are compiled to structural recursion
  over an explicit fuel bound so that every definition evaluates inside the
  kernel; the fuel is chosen from the termination measure of the Go loops and
  is proved sufficient, so the fueled functions never hit their out-of-fuel
  branch.
-/

set_option autoImplicit false

/-! ## Definitions: the embedded program -/

/-- The unix path separator used by the Go code. -/
def sepChar : Char := '/'

/-- Strip the leading star characters of a pattern, as the loop at the top of
Go scanChunk does. -/
def dropStars : List Char → List Char
  | [] => []
  | c :: rest => if c = '*' then dropStars rest else c :: rest

/-- The scan loop of Go scanChunk after leading stars are stripped: split the
pattern into the next chunk and the remaining pattern, tracking whether the
scan position is inside a character class; a backslash escapes the following
character (unix build). -/
def scanBody : Bool → List Char → List Char × List Char
  | _, [] => ([], [])
  | inrange, c :: rest =>
    if c = '\\' then
      match rest with
      | c2 :: rest2 =>
        let r := scanBody inrange rest2
        (c :: c2 :: r.1, r.2)
      | [] => ([c], [])
    else if c = '[' then
      let r := scanBody true rest
      (c :: r.1, r.2)
    else if c = ']' then
      let r := scanBody false rest
      (c :: r.1, r.2)
    else if c = '*' then
      if inrange then
        let r := scanBody inrange rest
        (c :: r.1, r.2)
      else ([], c :: rest)
    else
      let r := scanBody inrange rest
      (c :: r.1, r.2)

/-- Go scanChunk: get the next segment of the pattern, returning whether it
begins with stars, the literal chunk, and the rest of the pattern. -/
def scanChunk (pattern : List Char) : Bool × List Char × List Char :=
  let r := scanBody false (dropStars pattern)
  (decide (pattern.head? = some '*'), r.1, r.2)

/-- Go getEsc: get a possibly escaped character from a character class in a
chunk.  Returns the character and the remaining chunk, or an error for a
malformed class (Go ErrBadPattern). -/
def getEsc (chunk : List Char) : Except Unit (Char × List Char) :=
  match chunk with
  | [] => .error ()
  | c :: rest =>
    if c = '-' || c = ']' then .error ()
    else if c = '\\' then
      match rest with
      | [] => .error ()
      | c2 :: rest2 => if rest2 = [] then .error () else .ok (c2, rest2)
    else if rest = [] then .error () else .ok (c, rest)

/-- The range-parsing loop inside the character-class case of Go matchChunk,
with explicit fuel: parse all lo-hi ranges of the class, recording whether
the already consumed rune r falls in any range. -/
def rangesLoopF (fuel : Nat) (r : Char) (chunk : List Char) (nrange : Nat)
    (matched : Bool) : Option (Except Unit (Bool × List Char)) :=
  match fuel with
  | 0 => none
  | fuel + 1 =>
    if chunk.head? = some ']' ∧ nrange > 0 then some (.ok (matched, chunk.tail))
    else
      match getEsc chunk with
      | .error _ => some (.error ())
      | .ok (lo, ch1) =>
        if ch1.head? = some '-' then
          match getEsc ch1.tail with
          | .error _ => some (.error ())
          | .ok (hi, ch3) =>
            rangesLoopF fuel r ch3 (nrange + 1) (matched || (lo ≤ r && r ≤ hi))
        else rangesLoopF fuel r ch1 (nrange + 1) (matched || (lo ≤ r && r ≤ lo))

/-- The Go range loop; the fuel is one more than the chunk length, which is
sufficient by rangesLoopF_isSome. -/
def rangesLoop (r : Char) (chunk : List Char) (nrange : Nat) (matched : Bool) :
    Except Unit (Bool × List Char) :=
  (rangesLoopF (chunk.length + 1) r chunk nrange matched).getD (.error ())

/-- Result of Go matchChunk: a bad pattern, a failed match, or success with
the remainder of the name. -/
inductive ChunkRes where
  | err : ChunkRes
  | nomatch : ChunkRes
  | ok (rest : List Char) : ChunkRes
deriving DecidableEq, Repr

/-- Go matchChunk with explicit fuel: match the chunk against the beginning
of the name, threading the failed flag exactly as the Go loop does (a failed
match keeps scanning the chunk so malformed patterns are still reported as
errors). -/
def matchChunkGoF (fuel : Nat) (failed : Bool) (chunk s : List Char) : Option ChunkRes :=
  match fuel with
  | 0 => none
  | fuel + 1 =>
    match chunk with
    | [] => some (if failed then .nomatch else .ok s)
    | c :: chrest =>
      let failed1 := failed || s.isEmpty
      if c = '[' then
        let r : Char := if failed1 then Char.ofNat 0 else s.headD (Char.ofNat 0)
        let s1 := if failed1 then s else s.tail
        match rangesLoop r (if chrest.head? = some '^' then chrest.tail else chrest) 0 false with
        | .error _ => some .err
        | .ok (m, chunkRest) =>
          matchChunkGoF fuel (failed1 || (m == decide (chrest.head? = some '^'))) chunkRest s1
      else if c = '?' then
        if failed1 then matchChunkGoF fuel failed1 chrest s
        else
          let f2 : Bool := decide (s.headD (Char.ofNat 0) = sepChar)
          matchChunkGoF fuel (failed1 || f2) chrest s.tail
      else if c = '\\' then
        match chrest with
        | [] => some .err
        | c2 :: chrest2 =>
          if failed1 then matchChunkGoF fuel failed1 chrest2 s
          else matchChunkGoF fuel (failed1 || decide (c2 ≠ s.headD (Char.ofNat 0))) chrest2 s.tail
      else
        if failed1 then matchChunkGoF fuel failed1 chrest s
        else matchChunkGoF fuel (failed1 || decide (c ≠ s.headD (Char.ofNat 0))) chrest s.tail

/-- Go matchChunk; the fuel is one more than the chunk length, which is
sufficient by matchChunkGoF_isSome. -/
def matchChunkGo (failed : Bool) (chunk s : List Char) : ChunkRes :=
  (matchChunkGoF (chunk.length + 1) failed chunk s).getD .err

/-- Result of the star-retry loop in Go Match: continue the outer loop with a
new name remainder, a bad pattern, or exhaustion of retry positions. -/
inductive StarRes where
  | contOuter (t : List Char) : StarRes
  | err : StarRes
  | exhausted : StarRes
deriving DecidableEq, Repr

/-- The inner loop of Go Match after a chunk that follows a star failed:
retry the chunk at successive positions of the name, stopping at a path
separator. -/
def starLoop (chunk rest : List Char) : List Char → StarRes
  | [] => .exhausted
  | c :: nrest =>
    if c = sepChar then .exhausted
    else
      match matchChunkGo false chunk nrest with
      | .ok t => if rest = [] ∧ t ≠ [] then starLoop chunk rest nrest else .contOuter t
      | .err => .err
      | .nomatch => starLoop chunk rest nrest

/-- The final loop of Go Match with explicit fuel: check that the remainder
of the pattern is syntactically valid (it can only consume an empty name
from here). -/
def checkPatternValidF (fuel : Nat) (pattern : List Char) : Option Bool :=
  match fuel with
  | 0 => none
  | fuel + 1 =>
    if pattern = [] then some true
    else
      let sc := scanChunk pattern
      match matchChunkGo false sc.2.1 [] with
      | .err => some false
      | _ => checkPatternValidF fuel sc.2.2

/-- The pattern validity check; the fuel is sufficient by
checkPatternValidF_isSome. -/
def checkPatternValid (pattern : List Char) : Bool :=
  (checkPatternValidF (pattern.length + 1) pattern).getD false

/-- Go path/filepath Match (unix build) with explicit fuel.  Returns an error
exactly when Go returns ErrBadPattern, otherwise the boolean match result. -/
def goMatchF (fuel : Nat) (pattern name : List Char) : Option (Except Unit Bool) :=
  match fuel with
  | 0 => none
  | fuel + 1 =>
    match pattern with
    | [] => some (.ok (decide (name = [])))
    | _ :: _ =>
      let sc := scanChunk pattern
      let star := sc.1
      let chunk := sc.2.1
      let rest := sc.2.2
      if star = true ∧ chunk = [] then
        some (.ok (decide (¬ name.contains sepChar)))
      else
        match matchChunkGo false chunk name with
        | .ok t =>
          if t = [] ∨ rest ≠ [] then goMatchF fuel rest t
          else
            if star then
              match starLoop chunk rest name with
              | .contOuter t2 => goMatchF fuel rest t2
              | .err => some (.error ())
              | .exhausted => some (if checkPatternValid rest then .ok false else .error ())
            else some (if checkPatternValid rest then .ok false else .error ())
        | .err => some (.error ())
        | .nomatch =>
          if star then
            match starLoop chunk rest name with
            | .contOuter t2 => goMatchF fuel rest t2
            | .err => some (.error ())
            | .exhausted => some (if checkPatternValid rest then .ok false else .error ())
          else some (if checkPatternValid rest then .ok false else .error ())

/-- Go path/filepath Match; the fuel is sufficient by goMatchF_isSome. -/
def goMatch (pattern name : List Char) : Except Unit Bool :=
  (goMatchF (pattern.length + 1) pattern name).getD (.error ())

/-- Go filepath.Match as the sync engine consumes it: the error is discarded,
so a bad pattern yields false (sync.go line 339). -/
def goMatchBool (pattern name : String) : Bool :=
  match goMatch pattern.toList name.toList with
  | .ok b => b
  | .error _ => false

/-- Go filepath.Base for unix paths (path/filepath/path.go): empty path gives
dot, trailing separators are stripped, everything after the last separator is
kept, and an all-separator path gives the separator. -/
def goBase (path : String) : String :=
  if path = "" then "."
  else
    let cs := (path.toList.reverse.dropWhile (fun c => c = sepChar)).reverse
    let base := (cs.reverse.takeWhile (fun c => c ≠ sepChar)).reverse
    if base = [] then String.mk [sepChar] else String.mk base

/-- Go strings.Contains: sub occurs as a contiguous substring of s. -/
def strContains (s sub : List Char) : Bool :=
  if sub.isPrefixOf s then true
  else
    match s with
    | [] => false
    | _ :: t => strContains t sub

/-- Syncer.shouldExclude (sync.go lines 337-349): for each exclusion pattern,
a glob match with discarded error against the final path segment, then a
literal substring test against the whole relative path. -/
def shouldExclude (patterns : List String) (path : String) : Bool :=
  match patterns with
  | [] => false
  | pat :: rest =>
    if goMatchBool pat (goBase path) then true
    else if strContains path.toList pat.toList then true
    else shouldExclude rest path

/-- A file as the engine observes it: content bytes and permission mode. -/
structure SFile where
  content : String
  mode : Nat
deriving DecidableEq, Repr

/-- A path relative to a tree root, as a list of segments. -/
abbrev RPath := List String

/-- The slash-joined form of a relative path, as produced by Go filepath.Rel
on the unix build. -/
def joinPath (p : RPath) : String := String.intercalate "/" p

/-- Destinations in the live tree.  The constructors record the disjoint
directories of paths.Paths used by the engine: a path under the OpenCode
config directory, a path under the claude skills directory, and the two
fixed auth files under the OpenCode data directory (paths.go lines 54-61;
on every platform the config, data and skills directories are distinct). -/
inductive Dest where
  | conf (p : RPath) : Dest
  | skills (p : RPath) : Dest
  | dataAuth : Dest
  | dataMcpAuth : Dest
deriving DecidableEq, Repr

/-- An association-list file tree with keys of type a. -/
abbrev FTree (a : Type) := List (a × SFile)

abbrev MirrorTree := FTree RPath
abbrev LiveTree := FTree Dest

/-- Read the file at key k. -/
def lookupT {a : Type} [DecidableEq a] (t : FTree a) (k : a) : Option SFile :=
  (t.find? (fun e => decide (e.1 = k))).map (fun e => e.2)

/-- Remove the entry at key k. -/
def eraseKeyT {a : Type} [DecidableEq a] : FTree a → a → FTree a
  | [], _ => []
  | e :: rest, k => if e.1 = k then eraseKeyT rest k else e :: eraseKeyT rest k

/-- Overwrite the file at key k (os.Create truncates and rewrites, and the
caller sets the final mode). -/
def writeT {a : Type} [DecidableEq a] (t : FTree a) (k : a) (f : SFile) : FTree a :=
  (k, f) :: eraseKeyT t k

/-- Go os.WriteFile: the permission argument is used only when the file is
created; an existing file keeps its mode. -/
def writeFileT {a : Type} [DecidableEq a] (t : FTree a) (k : a) (content : String)
    (perm : Nat) : FTree a :=
  match lookupT t k with
  | some old => writeT t k ⟨content, old.mode⟩
  | none => writeT t k ⟨content, perm⟩

/-- Apply a list of plain-copy writes in order. -/
def applyWrites {a : Type} [DecidableEq a] (t : FTree a) (ws : List (a × SFile)) : FTree a :=
  ws.foldl (fun acc w => writeT acc w.1 w.2) t

/-- First-some choice on options. -/
def orO {b : Type} (x y : Option b) : Option b :=
  match x with
  | some v => some v
  | none => y

/-- The last write to key k in a write list, if any. -/
def lastWrite {a : Type} [DecidableEq a] (ws : List (a × SFile)) (k : a) : Option SFile :=
  match ws with
  | [] => none
  | w :: rest => orO (lastWrite rest k) (if w.1 = k then some w.2 else none)

/-- config.SyncConfig (config.go lines 125-129). -/
structure SyncConfig where
  includeAuth : Bool
  includeMcpAuth : Bool
  exclude : List String

/-- The encryption capability (crypto.Encryption) as the engine consumes it:
EncryptFile and DecryptFile read the whole source content, transform it, and
write the result with permission 0600. -/
structure Encryption where
  encrypt : String → String
  decrypt : String → String

/-- sync.Syncer (sync.go lines 19-39): configuration plus the optional
encryption instance, which is nil unless SetEncryption was called. -/
structure Syncer where
  cfg : SyncConfig
  encryption : Option Encryption

/-- The names under the OpenCode config directory listed by
Paths.SyncableOpenCodePaths (paths.go lines 80-93).  Each sync root is the
config directory joined with one name, so the path of a root relative to the
config directory is its name. -/
def syncableRootNames : List String :=
  ["opencode.json", "opencode.jsonc", "AGENTS.md", "agent", "command",
   "skill", "mode", "themes", "plugin"]

/-- Error kinds returned by CopyToRepo and CopyFromRepo (sync.go lines 137,
153, 214, 228). -/
inductive SyncError where
  | notConfAuth : SyncError
  | notConfMcpAuth : SyncError
  | decryptNotConfAuth : SyncError
  | decryptNotConfMcpAuth : SyncError
deriving DecidableEq, Repr

/-- The mirror writes performed for the catalog root with name n by
Syncer.CopyToRepo (sync.go lines 98-132): every live file under the config
directory whose first segment is n is copied, via copyFile or copyDir, to
the mirror at its path relative to the config directory.  Neither CopyToRepo
nor copyDir consults shouldExclude. -/
def confRootWrites (live : LiveTree) (n : String) : List (RPath × SFile) :=
  live.filterMap (fun e =>
    match e.1 with
    | .conf (m :: rest) => if m = n then some (m :: rest, e.2) else none
    | _ => none)

/-- The mirror writes for the remapped claude skills root: CopyToRepo copies
the ClaudeSkillsDir tree to the mirror directory claude-skills
(sync.go lines 111-112). -/
def skillsWrites (live : LiveTree) : List (RPath × SFile) :=
  live.filterMap (fun e =>
    match e.1 with
    | .skills p => some ("claude-skills" :: p, e.2)
    | _ => none)

/-- All plain-copy writes of one CopyToRepo call, in catalog order.  The
claude skills root is part of the catalog: CopyToRepo special-cases it
(sync.go line 111) and the README lists the skills directory under what is
always synced; the checked-in Paths.SyncableOpenCodePaths predates the
ClaudeSkillsDir field that sync.go uses, so its position is taken as last. -/
def exportPlainWrites (live : LiveTree) : List (RPath × SFile) :=
  syncableRootNames.flatMap (confRootWrites live) ++ skillsWrites live

/-- One sensitive-category phase of CopyToRepo (sync.go lines 134-164): if
the category is enabled, a nil encryption instance is an error; otherwise,
when the plaintext source exists, its encrypted content is written to the
fixed artifact name with os.WriteFile and permission 0600. -/
def authPhase (enabled : Bool) (encO : Option Encryption) (src : Option SFile)
    (artifact : RPath) (ncErr : SyncError) (m : MirrorTree) :
    MirrorTree × Option SyncError :=
  if enabled then
    match encO with
    | none => (m, some ncErr)
    | some enc =>
      match src with
      | some f => (writeFileT m artifact (enc.encrypt f.content) 0o600, none)
      | none => (m, none)
  else (m, none)

/-- Syncer.CopyToRepo (sync.go lines 95-167).  The first component is the
mirror state when the call returns, on success and on error alike: the plain
copy loop over the catalog runs before the sensitive categories are checked,
and a failed check aborts before the remaining phases. -/
def copyToRepo (s : Syncer) (live : LiveTree) (m : MirrorTree) :
    MirrorTree × Option SyncError :=
  let m1 := applyWrites m (exportPlainWrites live)
  let r1 := authPhase s.cfg.includeAuth s.encryption (lookupT live .dataAuth)
    ["auth.json.age"] .notConfAuth m1
  match r1.2 with
  | some e => (r1.1, some e)
  | none =>
    authPhase s.cfg.includeMcpAuth s.encryption (lookupT live .dataMcpAuth)
      ["mcp-auth.json.age"] .notConfMcpAuth r1.1

/-- The action the CopyFromRepo walk body takes for one mirror file
(sync.go lines 174-245). -/
inductive ImpAct where
  | skip : ImpAct
  | plainCopy (d : Dest) (f : SFile) : ImpAct
  | decryptWrite (d : Dest) (content : String) : ImpAct
  | err (e : SyncError) : ImpAct

/-- The walk body of Syncer.CopyFromRepo for the mirror file at path p:
subtrees of directories named .git are pruned; excluded relative paths are
skipped; paths under claude-skills go to the skills directory with the
prefix stripped; the two fixed artifact names, when their category is
enabled, are decrypted to the fixed data-directory files (an error if the
encryption instance is nil); everything else is plain-copied under the
config directory.  Comparing the segment list to the artifact name list and
testing the head segment are the segment forms of the Go string comparisons
on the slash-joined relative path. -/
def importStep (s : Syncer) (p : RPath) (f : SFile) : ImpAct :=
  if (p.dropLast).contains ".git" then .skip
  else if shouldExclude s.cfg.exclude (joinPath p) then .skip
  else if p = ["auth.json.age"] && s.cfg.includeAuth then
    match s.encryption with
    | none => .err .decryptNotConfAuth
    | some enc => .decryptWrite .dataAuth (enc.decrypt f.content)
  else if p = ["mcp-auth.json.age"] && s.cfg.includeMcpAuth then
    match s.encryption with
    | none => .err .decryptNotConfMcpAuth
    | some enc => .decryptWrite .dataMcpAuth (enc.decrypt f.content)
  else if p.head? = some "claude-skills" then
    match p with
    | _ :: [] => .skip
    | _ :: q => .plainCopy (.skills q) f
    | [] => .skip
  else .plainCopy (.conf p) f

/-- Apply one walk action to the live tree, or record the error that aborts
the walk. -/
def applyAct (st : LiveTree × Option SyncError) (p : RPath) (f : SFile) (s : Syncer) :
    LiveTree × Option SyncError :=
  match st.2 with
  | some _ => st
  | none =>
    match importStep s p f with
    | .skip => st
    | .plainCopy d g => (writeT st.1 d g, none)
    | .decryptWrite d c => (writeFileT st.1 d c 0o600, none)
    | .err e => (st.1, some e)

/-- Syncer.CopyFromRepo (sync.go lines 170-252): walk the mirror files in
order, applying the walk body to each; an error stops the walk and the live
tree keeps the writes made before it. -/
def copyFromRepo (s : Syncer) (m : MirrorTree) (live : LiveTree) :
    LiveTree × Option SyncError :=
  m.foldl (fun st e => applyAct st e.1 e.2 s) (live, none)

/-- sync.FileInfo (sync.go lines 52-61). -/
structure FileInfo where
  path : Dest
  relPath : String
  size : Nat
  modTime : Nat
  hash : String
  isNew : Bool
  isModified : Bool
  isDeleted : Bool
deriving DecidableEq, Repr

/-- The FileInfo records built by Syncer.getSyncableFiles for the catalog
root named n (sync.go lines 260-331): excluded paths are dropped, and the
record carries path, relative path, size, modification time and hash.  The
Go code never assigns IsNew, IsModified or IsDeleted anywhere, so they keep
their zero value false.  The hash function and modification times are
capability parameters standing for SHA-256 hashing and os.Stat. -/
def confRootFiles (s : Syncer) (live : LiveTree) (hashHex : String → String)
    (mt : Dest → Nat) (n : String) : List FileInfo :=
  live.filterMap (fun e =>
    match e.1 with
    | .conf (m :: rest) =>
      if m = n then
        if shouldExclude s.cfg.exclude (joinPath (m :: rest)) then none
        else some ⟨e.1, joinPath (m :: rest), e.2.content.length, mt e.1,
          hashHex e.2.content, false, false, false⟩
      else none
    | _ => none)

/-- The FileInfo records for the claude skills root, whose relative paths are
prefixed with the mirror name claude-skills (sync.go lines 284-286). -/
def skillsFiles (s : Syncer) (live : LiveTree) (hashHex : String → String)
    (mt : Dest → Nat) : List FileInfo :=
  live.filterMap (fun e =>
    match e.1 with
    | .skills p =>
      if shouldExclude s.cfg.exclude (joinPath ("claude-skills" :: p)) then none
      else some ⟨e.1, joinPath ("claude-skills" :: p), e.2.content.length, mt e.1,
        hashHex e.2.content, false, false, false⟩
    | _ => none)

/-- Syncer.getSyncableFiles (sync.go lines 255-334), in catalog order. -/
def getSyncableFiles (s : Syncer) (live : LiveTree) (hashHex : String → String)
    (mt : Dest → Nat) : List FileInfo :=
  syncableRootNames.flatMap (confRootFiles s live hashHex mt)
    ++ skillsFiles s live hashHex mt

/-- sync.SyncState (sync.go lines 42-49) as GetState populates it. -/
structure SyncStateM where
  isClean : Bool
  hasLocalChanges : Bool
  localFiles : List FileInfo
  conflictFiles : List String
deriving DecidableEq, Repr

/-- Syncer.GetState (sync.go lines 64-92): the clean and local-change flags
come from the git collaborator, the inventory from getSyncableFiles, and
ConflictFiles is always left empty. -/
def getState (isClean hasChanges : Bool) (s : Syncer) (live : LiveTree)
    (hashHex : String → String) (mt : Dest → Nat) : SyncStateM :=
  { isClean := isClean
    hasLocalChanges := hasChanges
    localFiles := getSyncableFiles s live hashHex mt
    conflictFiles := [] }

/-- The git collaborator signals consumed by one sync cycle: the uncommitted
change check before pulling, the outcome of Pull (conflict file list if it
fails with a ConflictError), the mirror contents after a successful pull,
and the change check after exporting. -/
structure GitView where
  hasChanges : Bool
  pullConflictFiles : Option (List String)
  pulledMirror : MirrorTree
  hasChangesAfterExport : Bool

/-- Observable operations of the cycle, in execution order: local status
checks, network operations, and engine runs. -/
inductive Ev where
  | checkChanges : Ev
  | netPull : Ev
  | importRun : Ev
  | exportRun : Ev
  | stageAll : Ev
  | commitRec : Ev
  | netPush : Ev
deriving DecidableEq, Repr

/-- Error kinds of the cycle commands. -/
inductive CliErr where
  | blockedLocalChanges : CliErr
  | mergeConflict (nfiles : Nat) : CliErr
  | copyFailed (e : SyncError) : CliErr
deriving DecidableEq, Repr

/-- runPull (commands.go lines 409-450): check for local uncommitted changes
and refuse to pull when present; then Pull (conflict errors are terminal);
then CopyFromRepo.  Returns the error, the trace of operations, and the live
tree after the call. -/
def runPull (g : GitView) (s : Syncer) (live : LiveTree) :
    Option CliErr × List Ev × LiveTree :=
  if g.hasChanges then (some .blockedLocalChanges, [.checkChanges], live)
  else
    match g.pullConflictFiles with
    | some fs => (some (.mergeConflict fs.length), [.checkChanges, .netPull], live)
    | none =>
      let r := copyFromRepo s g.pulledMirror live
      (r.2.map .copyFailed, [.checkChanges, .netPull, .importRun], r.1)

/-- runPush (commands.go lines 357-407): CopyToRepo, then check for changes;
nothing staged, committed or pushed when the mirror is unchanged. -/
def runPush (g : GitView) (s : Syncer) (live : LiveTree) (m : MirrorTree) :
    Option CliErr × List Ev × MirrorTree :=
  let r := copyToRepo s live m
  match r.2 with
  | some e => (some (.copyFailed e), [.exportRun], r.1)
  | none =>
    if g.hasChangesAfterExport then
      (none, [.exportRun, .checkChanges, .stageAll, .commitRec, .netPush], r.1)
    else (none, [.exportRun, .checkChanges], r.1)

/-- runSync (commands.go lines 340-355): pull, then push; a pull failure
aborts the cycle before the push step, with the pull error kind preserved
inside the wrapping message. -/
def runSync (g : GitView) (s : Syncer) (live : LiveTree) (m : MirrorTree) :
    Option CliErr × List Ev × LiveTree × MirrorTree :=
  match runPull g s live with
  | (some e, tr, live2) => (some e, tr, live2, m)
  | (none, tr, live2) =>
    let q := runPush g s live2 m
    (q.1, tr ++ q.2.1, live2, q.2.2)

/-- Go filepath.Match returned an error (ErrBadPattern) on this pattern and
name. -/
def goMatchErr (pattern name : List Char) : Bool :=
  match goMatch pattern name with
  | .error _ => true
  | .ok _ => false

/-- The side conditions under which the claimed round trip does hold: the
destination lies under a catalog root (or the remapped skills root), no
directory on its path is named .git, and its mirror relative path is not
excluded. -/
def roundTrippable (s : Syncer) (d : Dest) : Prop :=
  match d with
  | .conf p => ∃ n rest, p = n :: rest ∧ n ∈ syncableRootNames ∧
      (p.dropLast).contains ".git" = false ∧
      shouldExclude s.cfg.exclude (joinPath p) = false
  | .skills q => q ≠ [] ∧ (("claude-skills" :: q).dropLast).contains ".git" = false ∧
      shouldExclude s.cfg.exclude (joinPath ("claude-skills" :: q)) = false
  | .dataAuth => False
  | .dataMcpAuth => False

/-- Modelled from the age file format used by the AgeEncryption provider of
src/unnamed/part_001: age.Encrypt draws a fresh X25519 ephemeral share from
system entropy on every call and writes it into the ciphertext header, so
ciphertexts of the same plaintext under different entropy values differ byte
for byte.  This concrete stand-in records the entropy value in the header
position. -/
def ageLikeEncrypt (entropy : Nat) (plaintext : String) : String :=
  "age-encryption.org/v1;" ++ toString entropy ++ ";" ++ plaintext

/-- One sensitive-category phase of CopyToRepo with the encryption capability
in its entropy-consuming form: an actual encryption call consumes the next
value of the entropy stream rnd at index k, exactly where
AgeEncryption.Encrypt draws fresh randomness.  Result: mirror, error, next
unused entropy index. -/
def authPhaseR (enabled : Bool) (encO : Option (Nat → String → String))
    (rnd : Nat → Nat) (k : Nat) (src : Option SFile) (artifact : RPath)
    (ncErr : SyncError) (m : MirrorTree) : MirrorTree × Option SyncError × Nat :=
  if enabled then
    match encO with
    | none => (m, some ncErr, k)
    | some e =>
      match src with
      | some f => (writeFileT m artifact (e (rnd k) f.content) 0o600, none, k + 1)
      | none => (m, none, k)
  else (m, none, k)

/-- Syncer.CopyToRepo (sync.go lines 95-167) with the encryption capability
in its entropy-consuming form; identical to copyToRepo except that each
EncryptFile call consumes one fresh entropy value, as the age provider does.
The returned index lets a second export continue the same entropy stream. -/
def copyToRepoR (cfg : SyncConfig) (encO : Option (Nat → String → String))
    (rnd : Nat → Nat) (k : Nat) (live : LiveTree) (m : MirrorTree) :
    MirrorTree × Option SyncError × Nat :=
  let m1 := applyWrites m (exportPlainWrites live)
  let r1 := authPhaseR cfg.includeAuth encO rnd k (lookupT live .dataAuth)
    ["auth.json.age"] .notConfAuth m1
  match r1.2.1 with
  | some e => (r1.1, some e, r1.2.2)
  | none =>
    authPhaseR cfg.includeMcpAuth encO rnd r1.2.2 (lookupT live .dataMcpAuth)
      ["mcp-auth.json.age"] .notConfMcpAuth r1.1

/-! ## Theorems -/

theorem dropStars_length (l : List Char) : (dropStars l).length ≤ l.length := by
  induction l with
  | nil => simp [dropStars]
  | cons c rest ih =>
    rw [dropStars]
    split
    · exact Nat.le_succ_of_le ih
    · simp

theorem dropStars_head (l : List Char) : (dropStars l).head? ≠ some '*' := by
  induction l with
  | nil => simp [dropStars]
  | cons c rest ih =>
    rw [dropStars]
    split
    · exact ih
    · simpa using fun h => absurd h (by assumption)

theorem scanBody_nil (b : Bool) : scanBody b [] = ([], []) := by
  rw [scanBody.eq_def]

theorem scanBody_append : ∀ (n : Nat) (b : Bool) (l : List Char), l.length ≤ n →
    (scanBody b l).1 ++ (scanBody b l).2 = l := by
  intro n
  induction n with
  | zero =>
    intro b l hl
    have h0 : l = [] := by cases l <;> simp_all
    subst h0
    simp [scanBody_nil]
  | succ n ih =>
    intro b l hl
    match l with
    | [] => simp [scanBody_nil]
    | c :: rest =>
      simp only [List.length_cons] at hl
      rw [scanBody.eq_def]
      simp only
      by_cases h1 : c = '\\'
      · simp only [if_pos h1]
        match rest with
        | [] => simp
        | c2 :: rest2 =>
          simp only [List.length_cons] at hl
          simpa using ih b rest2 (by omega)
      · simp only [if_neg h1]
        by_cases h2 : c = '['
        · simp only [if_pos h2]
          simpa using ih true rest (by omega)
        · simp only [if_neg h2]
          by_cases h3 : c = ']'
          · simp only [if_pos h3]
            simpa using ih false rest (by omega)
          · simp only [if_neg h3]
            by_cases h4 : c = '*'
            · simp only [if_pos h4]
              cases b with
              | true => simpa using ih true rest (by omega)
              | false => simp
            · simp only [if_neg h4]
              simpa using ih b rest (by omega)

theorem scanBody_chunk_ne (l : List Char) (hne : l ≠ [])
    (hhead : l.head? ≠ some '*') : (scanBody false l).1 ≠ [] := by
  match l with
  | [] => exact absurd rfl hne
  | c :: rest =>
    simp only [List.head?_cons, ne_eq, Option.some.injEq] at hhead
    rw [scanBody.eq_def]
    simp only
    by_cases h1 : c = '\\'
    · simp only [if_pos h1]
      match rest with
      | [] => simp
      | c2 :: rest2 => simp
    · simp only [if_neg h1]
      by_cases h2 : c = '['
      · simp [if_pos h2]
      · simp only [if_neg h2]
        by_cases h3 : c = ']'
        · simp [if_pos h3]
        · simp only [if_neg h3]
          simp only [if_neg hhead]
          simp

theorem scanChunk_rest_length (pattern : List Char) (h : pattern ≠ []) :
    (scanChunk pattern).2.2.length < pattern.length := by
  have hlen : 1 ≤ pattern.length := by
    cases pattern
    · exact absurd rfl h
    · simp
  by_cases hp : dropStars pattern = []
  · simp only [scanChunk, hp, scanBody_nil, List.length_nil]
    omega
  · have happ := scanBody_append (dropStars pattern).length false (dropStars pattern) le_rfl
    have hchunk := scanBody_chunk_ne (dropStars pattern) hp (dropStars_head pattern)
    have h1 : 1 ≤ (scanBody false (dropStars pattern)).1.length := by
      cases hh : (scanBody false (dropStars pattern)).1
      · exact absurd hh hchunk
      · simp
    have h2 : (scanBody false (dropStars pattern)).1.length +
        (scanBody false (dropStars pattern)).2.length = (dropStars pattern).length := by
      rw [← List.length_append, happ]
    have h3 := dropStars_length pattern
    simp only [scanChunk]
    omega

theorem getEsc_length {chunk : List Char} {c : Char} {rest : List Char}
    (h : getEsc chunk = .ok (c, rest)) : rest.length < chunk.length := by
  match chunk with
  | [] => simp [getEsc] at h
  | c0 :: r0 =>
    simp only [getEsc] at h
    split at h
    · exact absurd h (by simp)
    · split at h
      · match r0 with
        | [] => simp at h
        | c2 :: rest2 =>
          simp only at h
          split at h
          · exact absurd h (by simp)
          · simp only [Except.ok.injEq, Prod.mk.injEq] at h
            simp only [← h.2, List.length_cons]
            omega
      · split at h
        · exact absurd h (by simp)
        · simp only [Except.ok.injEq, Prod.mk.injEq] at h
          simp only [← h.2, List.length_cons]
          omega

/-- Fuel sufficiency: the range loop consumes the chunk. -/
theorem rangesLoopF_isSome :
    ∀ (fuel : Nat) (r : Char) (chunk : List Char) (nrange : Nat) (matched : Bool),
      chunk.length < fuel → (rangesLoopF fuel r chunk nrange matched).isSome := by
  intro fuel
  induction fuel with
  | zero => intro r chunk nrange matched h; omega
  | succ fuel ih =>
    intro r chunk nrange matched h
    rw [rangesLoopF]
    split
    · simp
    · split
      · simp
      · rename_i lo ch1 hg
        have h1 := getEsc_length hg
        split
        · rename_i hd
          split
          · simp
          · rename_i hi ch3 hg2
            have h2 := getEsc_length hg2
            have h3 : ch1.tail.length + 1 = ch1.length := by
              cases ch1 with
              | nil => simp at hd
              | cons a l => simp
            exact ih r ch3 (nrange + 1) _ (by omega)
        · exact ih r ch1 (nrange + 1) _ (by omega)

theorem rangesLoopF_ok_length :
    ∀ (fuel : Nat) (r : Char) (chunk : List Char) (nrange : Nat) (matched b : Bool)
      (rest : List Char),
      rangesLoopF fuel r chunk nrange matched = some (.ok (b, rest)) →
      rest.length < chunk.length := by
  intro fuel
  induction fuel with
  | zero => intro r chunk nrange matched b rest h; simp [rangesLoopF] at h
  | succ fuel ih =>
    intro r chunk nrange matched b rest h
    rw [rangesLoopF] at h
    split at h
    · rename_i hhead
      simp only [Option.some.injEq, Except.ok.injEq, Prod.mk.injEq] at h
      cases chunk with
      | nil => simp at hhead
      | cons a l =>
        simp only [← h.2, List.tail_cons, List.length_cons]
        omega
    · split at h
      · exact absurd h (by simp)
      · rename_i lo ch1 hg
        have h1 := getEsc_length hg
        split at h
        · rename_i hd
          split at h
          · exact absurd h (by simp)
          · rename_i hi ch3 hg2
            have h2 := getEsc_length hg2
            have h3 : ch1.tail.length + 1 = ch1.length := by
              cases ch1 with
              | nil => simp at hd
              | cons a l => simp
            have := ih r ch3 (nrange + 1) _ b rest h
            omega
        · have := ih r ch1 (nrange + 1) _ b rest h
          omega

theorem rangesLoop_ok_length {r : Char} {chunk : List Char} {nrange : Nat}
    {matched b : Bool} {rest : List Char}
    (h : rangesLoop r chunk nrange matched = .ok (b, rest)) :
    rest.length < chunk.length := by
  have hs := rangesLoopF_isSome (chunk.length + 1) r chunk nrange matched (by omega)
  rw [rangesLoop] at h
  cases ho : rangesLoopF (chunk.length + 1) r chunk nrange matched with
  | none => rw [ho] at hs; simp at hs
  | some v =>
    rw [ho] at h
    simp only [Option.getD_some] at h
    subst h
    exact rangesLoopF_ok_length _ r chunk nrange matched b rest ho

theorem matchChunkGoF_isSome :
    ∀ (fuel : Nat) (failed : Bool) (chunk s : List Char),
      chunk.length < fuel → (matchChunkGoF fuel failed chunk s).isSome := by
  intro fuel
  induction fuel with
  | zero => intro failed chunk s h; omega
  | succ fuel ih =>
    intro failed chunk s h
    match chunk with
    | [] => simp [matchChunkGoF]
    | c :: chrest =>
      simp only [List.length_cons] at h
      rw [matchChunkGoF.eq_def]
      simp only
      split
      · split
        · simp
        · rename_i m chunkRest hr
          have h1 := rangesLoop_ok_length hr
          have h2 : (if chrest.head? = some '^' then chrest.tail else chrest).length ≤
              chrest.length := by
            split
            · simp [List.length_tail]
            · exact le_rfl
          exact ih _ chunkRest _ (by omega)
      · split
        · split
          · exact ih _ chrest _ (by omega)
          · exact ih _ chrest _ (by omega)
        · split
          · split
            · simp
            · rename_i chrest2
              simp only [List.length_cons] at h
              split
              · exact ih _ chrest2 _ (by omega)
              · exact ih _ chrest2 _ (by omega)
          · split
            · exact ih _ chrest _ (by omega)
            · exact ih _ chrest _ (by omega)

theorem checkPatternValidF_isSome :
    ∀ (fuel : Nat) (pattern : List Char), pattern.length < fuel →
      (checkPatternValidF fuel pattern).isSome := by
  intro fuel
  induction fuel with
  | zero => intro pattern h; omega
  | succ fuel ih =>
    intro pattern h
    rw [checkPatternValidF]
    split
    · simp
    · rename_i hne
      have hlt := scanChunk_rest_length pattern hne
      dsimp only
      split
      · simp
      · exact ih _ (by omega)

theorem goMatchF_isSome :
    ∀ (fuel : Nat) (pattern name : List Char), pattern.length < fuel →
      (goMatchF fuel pattern name).isSome := by
  intro fuel
  induction fuel with
  | zero => intro pattern name h; omega
  | succ fuel ih =>
    intro pattern name h
    match pattern with
    | [] => simp [goMatchF]
    | p0 :: prest =>
      have hlt := scanChunk_rest_length (p0 :: prest) (by simp)
      rw [goMatchF.eq_def]
      simp only
      split
      · simp
      · split
        · split
          · exact ih _ _ (by simp only [List.length_cons] at h hlt ⊢; omega)
          · split
            · split
              · exact ih _ _ (by simp only [List.length_cons] at h hlt ⊢; omega)
              · simp
              · simp
            · simp
        · simp
        · split
          · split
            · exact ih _ _ (by simp only [List.length_cons] at h hlt ⊢; omega)
            · simp
            · simp
          · simp

example : goMatchBool "*.log" "b.log" = true := by decide
example : goMatchBool "*.log" "a.json" = false := by decide
example : goMatchBool "a*" "abc" = true := by decide
example : goMatchBool "a*" "b" = false := by decide
example : goMatchBool "?x" "ax" = true := by decide
example : goMatchBool "[a-c]x" "bx" = true := by decide
example : goMatchBool "[^a-c]x" "dx" = true := by decide
example : goMatchBool "[^a-c]x" "bx" = false := by decide
example : goMatch "[".toList "a".toList = .error () := by rfl
example : goMatch "[x".toList "x".toList = .error () := by rfl
example : goMatchBool "*" "a/b" = false := by decide
example : goMatchBool "*" "ab" = true := by decide
example : goMatchBool "a\\*b" "a*b" = true := by decide
example : goMatchBool "a\\*b" "axb" = false := by decide
example : goMatchBool "a*b*c" "aXbYc" = true := by decide
example : goMatchBool "node_modules" "node_modules" = true := by decide

example : goBase "agent/secrets/b.log" = "b.log" := by decide
example : goBase "login.json" = "login.json" := by decide
example : shouldExclude ["log"] "login.json" = true := by decide
example : shouldExclude ["*.log"] "agent/secrets/b.log" = true := by decide
example : shouldExclude ["*.log"] "a.json" = false := by decide
example : shouldExclude ["node_modules", "*.log", "bun.lock"] "plugin/node_modules/x/y.js" = true := by decide
example : shouldExclude [] "anything" = false := by decide
example : shouldExclude ["["] "a[x" = true := by decide

theorem lookupT_cons {a : Type} [DecidableEq a] (e : a × SFile) (t : FTree a) (k : a) :
    lookupT (e :: t) k = if e.1 = k then some e.2 else lookupT t k := by
  simp only [lookupT, List.find?_cons]
  by_cases h : e.1 = k
  · simp [h]
  · simp [h]

theorem lookupT_eraseKeyT {a : Type} [DecidableEq a] (t : FTree a) (k k' : a) :
    lookupT (eraseKeyT t k) k' = if k' = k then none else lookupT t k' := by
  induction t with
  | nil => simp [eraseKeyT, lookupT]
  | cons e rest ih =>
    rw [eraseKeyT]
    by_cases he : e.1 = k
    · rw [if_pos he, ih, lookupT_cons]
      by_cases h : k' = k
      · simp [h]
      · rw [if_neg h, if_neg h, if_neg (by rw [he]; exact fun hh => h hh.symm)]
    · rw [if_neg he, lookupT_cons, lookupT_cons]
      by_cases hek : e.1 = k'
      · rw [if_pos hek, if_pos hek, if_neg (fun hh => he (hek.trans hh))]
      · rw [if_neg hek, if_neg hek, ih]

theorem lookupT_writeT {a : Type} [DecidableEq a] (t : FTree a) (k k' : a) (f : SFile) :
    lookupT (writeT t k f) k' = if k' = k then some f else lookupT t k' := by
  rw [writeT, lookupT_cons, lookupT_eraseKeyT]
  by_cases h : k' = k
  · simp [h]
  · rw [if_neg (fun hh => h hh.symm), if_neg h, if_neg h]

theorem lookupT_applyWrites {a : Type} [DecidableEq a] (ws : List (a × SFile))
    (t : FTree a) (k : a) :
    lookupT (applyWrites t ws) k = orO (lastWrite ws k) (lookupT t k) := by
  induction ws generalizing t with
  | nil => simp [applyWrites, lastWrite, orO]
  | cons w rest ih =>
    have step : applyWrites t (w :: rest) = applyWrites (writeT t w.1 w.2) rest := rfl
    rw [step, ih, lastWrite]
    cases hl : lastWrite rest k with
    | some f => simp [orO, hl]
    | none =>
      simp only [orO]
      rw [lookupT_writeT]
      by_cases h : k = w.1
      · subst h
        simp
      · rw [if_neg (fun hh : w.1 = k => h hh.symm), if_neg h]

example : lookupT (applyWrites ([] : MirrorTree)
    [(["a"], ⟨"1", 420⟩), (["a"], ⟨"2", 420⟩)]) ["a"] = some ⟨"2", 420⟩ := by decide

example : (copyFromRepo ⟨⟨false, false, []⟩, none⟩
    [(["agent", "a.json"], ⟨"x", 420⟩)] []).1 =
    [(.conf ["agent", "a.json"], ⟨"x", 420⟩)] := by decide

example : (copyToRepo ⟨⟨false, false, ["*.log"]⟩, none⟩
    [(.conf ["agent", "a.json"], ⟨"{}", 420⟩),
     (.conf ["agent", "secrets", "b.log"], ⟨"x", 420⟩)] []).1.length = 2 := by decide

theorem lookupT_writeFileT_ne {a : Type} [DecidableEq a] (t : FTree a) (k k' : a)
    (c : String) (perm : Nat) (h : k' ≠ k) :
    lookupT (writeFileT t k c perm) k' = lookupT t k' := by
  rw [writeFileT]
  cases lookupT t k with
  | none => rw [lookupT_writeT, if_neg h]
  | some old => rw [lookupT_writeT, if_neg h]

theorem lastWrite_eq_none {a : Type} [DecidableEq a] (ws : List (a × SFile)) (k : a)
    (h : ∀ w ∈ ws, w.1 ≠ k) : lastWrite ws k = none := by
  induction ws with
  | nil => rfl
  | cons w rest ih =>
    rw [lastWrite, ih (fun x hx => h x (List.mem_cons_of_mem w hx)),
      if_neg (h w (List.mem_cons_self w rest))]
    rfl

theorem exportPlainWrites_key_shape (live : LiveTree) :
    ∀ w ∈ exportPlainWrites live,
      (∃ n rest, w.1 = n :: rest ∧ n ∈ syncableRootNames) ∨
      (∃ q, w.1 = "claude-skills" :: q) := by
  intro w hw
  rw [exportPlainWrites, List.mem_append] at hw
  rcases hw with hw | hw
  · rw [List.mem_flatMap] at hw
    obtain ⟨n, hn, hw⟩ := hw
    rw [confRootWrites, List.mem_filterMap] at hw
    obtain ⟨e, _, he⟩ := hw
    left
    match e, he with
    | (.conf (mm :: rest), f), he =>
      simp only at he
      split at he
      · rename_i hm
        simp only [Option.some.injEq] at he
        subst he
        exact ⟨mm, rest, rfl, by rw [hm]; exact hn⟩
      · exact absurd he (by simp)
  · rw [skillsWrites, List.mem_filterMap] at hw
    obtain ⟨e, _, he⟩ := hw
    right
    match e, he with
    | (.skills p, f), he =>
      simp only [Option.some.injEq] at he
      subst he
      exact ⟨p, rfl⟩

theorem lastWrite_export_auth (live : LiveTree) :
    lastWrite (exportPlainWrites live) ["auth.json.age"] = none := by
  refine lastWrite_eq_none _ _ (fun w hw => ?_)
  rcases exportPlainWrites_key_shape live w hw with ⟨n, rest, hk, hn⟩ | ⟨q, hk⟩
  · intro hkey
    rw [hkey] at hk
    have hn' : n = "auth.json.age" := by
      have := hk
      simp only [List.cons.injEq] at this
      exact this.1.symm
    subst hn'
    revert hn
    decide
  · intro hkey
    rw [hkey] at hk
    simp only [List.cons.injEq] at hk
    exact absurd hk.1.symm (by decide)

theorem lastWrite_export_mcp (live : LiveTree) :
    lastWrite (exportPlainWrites live) ["mcp-auth.json.age"] = none := by
  refine lastWrite_eq_none _ _ (fun w hw => ?_)
  rcases exportPlainWrites_key_shape live w hw with ⟨n, rest, hk, hn⟩ | ⟨q, hk⟩
  · intro hkey
    rw [hkey] at hk
    have hn' : n = "mcp-auth.json.age" := by
      simp only [List.cons.injEq] at hk
      exact hk.1.symm
    subst hn'
    revert hn
    decide
  · intro hkey
    rw [hkey] at hk
    simp only [List.cons.injEq] at hk
    exact absurd hk.1.symm (by decide)

theorem importStep_plainCopy_shape {s : Syncer} {p : RPath} {f : SFile} {d : Dest}
    {g : SFile} (h : importStep s p f = .plainCopy d g) :
    g = f ∧ ((d = .conf p) ∨ (∃ q, p = "claude-skills" :: q ∧ q ≠ [] ∧ d = .skills q)) := by
  rw [importStep.eq_def] at h
  split at h
  · exact absurd h (by simp)
  · split at h
    · exact absurd h (by simp)
    · split at h
      · split at h <;> exact absurd h (by simp)
      · split at h
        · split at h <;> exact absurd h (by simp)
        · split at h
          · match p, h with
            | _ :: [], h => exact absurd h (by simp)
            | c :: q1 :: qrest, h =>
              simp only [ImpAct.plainCopy.injEq] at h
              rename_i hhead
              simp only [List.head?_cons, Option.some.injEq] at hhead
              exact ⟨h.2.symm,
                Or.inr ⟨q1 :: qrest, by rw [hhead], by simp, h.1.symm⟩⟩
            | [], h => exact absurd h (by simp)
          · simp only [ImpAct.plainCopy.injEq] at h
            exact ⟨h.2.symm, Or.inl h.1.symm⟩

theorem importStep_plainCopy_ne_data {s : Syncer} {p : RPath} {f : SFile} {d : Dest}
    {g : SFile} (h : importStep s p f = .plainCopy d g) :
    d ≠ .dataAuth ∧ d ≠ .dataMcpAuth := by
  rcases (importStep_plainCopy_shape h).2 with hd | ⟨q, _, _, hd⟩
  · subst hd
    exact ⟨by simp, by simp⟩
  · subst hd
    exact ⟨by simp, by simp⟩

theorem importStep_decryptWrite_shape {s : Syncer} {p : RPath} {f : SFile} {d : Dest}
    {c : String} (h : importStep s p f = .decryptWrite d c) :
    (d = .dataAuth ∧ p = ["auth.json.age"] ∧ s.cfg.includeAuth = true ∧
      ∃ enc, s.encryption = some enc ∧ c = enc.decrypt f.content) ∨
    (d = .dataMcpAuth ∧ p = ["mcp-auth.json.age"] ∧ s.cfg.includeMcpAuth = true ∧
      ∃ enc, s.encryption = some enc ∧ c = enc.decrypt f.content) := by
  rw [importStep.eq_def] at h
  split at h
  · exact absurd h (by simp)
  · split at h
    · exact absurd h (by simp)
    · split at h
      · rename_i hcond
        simp only [Bool.and_eq_true, decide_eq_true_eq] at hcond
        cases henc : s.encryption with
        | none => rw [henc] at h; exact absurd h (by simp)
        | some enc =>
          rw [henc] at h
          simp only [ImpAct.decryptWrite.injEq] at h
          exact Or.inl ⟨h.1.symm, by simpa using hcond.1, hcond.2,
            enc, rfl, h.2.symm⟩
      · split at h
        · rename_i hcond
          simp only [Bool.and_eq_true, decide_eq_true_eq] at hcond
          cases henc : s.encryption with
          | none => rw [henc] at h; exact absurd h (by simp)
          | some enc =>
            rw [henc] at h
            simp only [ImpAct.decryptWrite.injEq] at h
            exact Or.inr ⟨h.1.symm, by simpa using hcond.1, hcond.2,
              enc, rfl, h.2.symm⟩
        · split at h
          · split at h <;> exact absurd h (by simp)
          · exact absurd h (by simp)

/-- Frame property of the import walk: a destination no walk action writes is
preserved, whether or not the walk aborts. -/
theorem copyFromRepo_frame (s : Syncer) (d : Dest) :
    ∀ (m : MirrorTree) (st : LiveTree × Option SyncError),
      (∀ e ∈ m, ∀ g, importStep s e.1 e.2 ≠ .plainCopy d g) →
      (∀ e ∈ m, ∀ c, importStep s e.1 e.2 ≠ .decryptWrite d c) →
      lookupT (m.foldl (fun st e => applyAct st e.1 e.2 s) st).1 d = lookupT st.1 d := by
  intro m
  induction m with
  | nil => intro st _ _; rfl
  | cons e rest ih =>
    intro st h1 h2
    have hstep : lookupT (applyAct st e.1 e.2 s).1 d = lookupT st.1 d := by
      rw [applyAct]
      cases hs : st.2 with
      | some err => rfl
      | none =>
        cases hi : importStep s e.1 e.2 with
        | skip => rfl
        | plainCopy d' g =>
          have hne : d ≠ d' :=
            fun hh => (h1 e (List.mem_cons_self e rest) g) (hh ▸ hi)
          simp only
          rw [lookupT_writeT, if_neg hne]
        | decryptWrite d' c =>
          have hne : d ≠ d' :=
            fun hh => (h2 e (List.mem_cons_self e rest) c) (hh ▸ hi)
          simp only
          rw [lookupT_writeFileT_ne _ _ _ _ _ hne]
        | err er => rfl
    rw [List.foldl_cons,
      ih _ (fun x hx => h1 x (List.mem_cons_of_mem e hx))
        (fun x hx => h2 x (List.mem_cons_of_mem e hx)),
      hstep]

/-- C1 (code bug witness): CopyToRepo does not apply the Exclusion Matcher.
Exporting the scenario tree with files agent/a.json and agent/secrets/b.log
under exclusion pattern *.log puts b.log into the mirror, although
shouldExclude returns true for its relative path; the claim and the README
say the mirror contains a.json only. -/
theorem c1_export_ignores_exclusions :
    shouldExclude ["*.log"] "agent/secrets/b.log" = true ∧
    lookupT (copyToRepo ⟨⟨false, false, ["*.log"]⟩, none⟩
      [(.conf ["agent", "a.json"], ⟨"{}", 420⟩),
       (.conf ["agent", "secrets", "b.log"], ⟨"x", 420⟩)] []).1
      ["agent", "secrets", "b.log"] = some ⟨"x", 420⟩ ∧
    lookupT (copyToRepo ⟨⟨false, false, ["*.log"]⟩, none⟩
      [(.conf ["agent", "a.json"], ⟨"{}", 420⟩),
       (.conf ["agent", "secrets", "b.log"], ⟨"x", 420⟩)] []).1
      ["agent", "a.json"] = some ⟨"{}", 420⟩ := by decide

/-- C2: shouldExclude returns true exactly when some pattern glob-matches the
final segment of the path or occurs as a literal substring of the path; in
particular pattern log excludes a file named login.json. -/
theorem c2_shouldExclude_iff :
    (∀ (patterns : List String) (path : String),
      shouldExclude patterns path = true ↔
        ∃ pat ∈ patterns,
          goMatchBool pat (goBase path) = true ∨
          strContains path.toList pat.toList = true) ∧
    shouldExclude ["log"] "login.json" = true := by
  constructor
  · intro patterns path
    induction patterns with
    | nil => simp [shouldExclude]
    | cons pat rest ih =>
      rw [shouldExclude]
      constructor
      · intro h
        split at h
        · exact ⟨pat, by simp, Or.inl (by assumption)⟩
        · split at h
          · exact ⟨pat, by simp, Or.inr (by assumption)⟩
          · obtain ⟨q, hq, hor⟩ := ih.mp h
            exact ⟨q, by simp [hq], hor⟩
      · rintro ⟨q, hq, hor⟩
        simp only [List.mem_cons] at hq
        rcases hq with rfl | hq
        · rcases hor with h | h
          · simp [h]
          · simp only [String.toList] at h
            simp [h]
        · split
          · rfl
          · split
            · rfl
            · exact ih.mpr ⟨q, hq, hor⟩
  · decide

/-- C10: shouldExclude is total, and a pattern whose glob match errors
contributes no glob match: when every pattern in the list is a bad glob for
the final segment, the result is exactly the substring check. -/
theorem c10_bad_glob_substring_only :
    ∀ (patterns : List String) (path : String),
      (∀ pat ∈ patterns, goMatchErr pat.toList (goBase path).toList = true) →
      shouldExclude patterns path =
        patterns.any (fun pat => strContains path.toList pat.toList) := by
  intro patterns path h
  induction patterns with
  | nil => rfl
  | cons pat rest ih =>
    have hpat := h pat (List.mem_cons_self pat rest)
    have hmb : goMatchBool pat (goBase path) = false := by
      rw [goMatchBool]
      rw [goMatchErr] at hpat
      cases hg : goMatch pat.toList (goBase path).toList with
      | error e => rfl
      | ok b => rw [hg] at hpat; simp at hpat
    rw [shouldExclude, hmb, if_neg (by simp), List.any_cons]
    by_cases hc : strContains path.toList pat.toList = true
    · simp only [String.toList] at hc
      simp [hc]
    · simp only [Bool.not_eq_true] at hc
      rw [hc, if_neg (by simp)]
      rw [ih (fun q hq => h q (List.mem_cons_of_mem pat hq))]
      simp

/-- C10 witness: the pattern open-bracket-x is an invalid glob, yet it still
excludes the path a-bracket-x through the substring rule. -/
theorem c10_witness :
    shouldExclude ["[x"] "a[x" =
      (["[x"] : List String).any (fun pat => strContains "a[x".toList pat.toList) :=
  c10_bad_glob_substring_only ["[x"] "a[x" (by decide)

/-- C5: when a sensitive category is disabled, import leaves that category's
live plaintext file untouched, no matter what the mirror contains: with
IncludeAuth off the data-directory auth.json is preserved, and with
IncludeMcpAuth off the data-directory mcp-auth.json is preserved (the
artifact, if present, is routed to the plain-copy destination under the
config directory, never to a data-directory file). -/
theorem c5_disabled_category_frame (s : Syncer) (m : MirrorTree) (live : LiveTree) :
    (s.cfg.includeAuth = false →
      lookupT (copyFromRepo s m live).1 .dataAuth = lookupT live .dataAuth) ∧
    (s.cfg.includeMcpAuth = false →
      lookupT (copyFromRepo s m live).1 .dataMcpAuth = lookupT live .dataMcpAuth) := by
  constructor
  · intro h
    rw [copyFromRepo]
    refine copyFromRepo_frame s .dataAuth m (live, none) ?_ ?_
    · intro e _ g hstep
      exact absurd rfl (importStep_plainCopy_ne_data hstep).1.symm
    · intro e _ c hstep
      rcases importStep_decryptWrite_shape hstep with ⟨_, _, hinc, _⟩ | ⟨hd, _, _, _⟩
      · rw [h] at hinc
        exact absurd hinc (by simp)
      · exact absurd hd.symm (by simp)
  · intro h
    rw [copyFromRepo]
    refine copyFromRepo_frame s .dataMcpAuth m (live, none) ?_ ?_
    · intro e _ g hstep
      exact absurd rfl (importStep_plainCopy_ne_data hstep).2.symm
    · intro e _ c hstep
      rcases importStep_decryptWrite_shape hstep with ⟨hd, _, _, _⟩ | ⟨_, _, hinc, _⟩
      · exact absurd hd.symm (by simp)
      · rw [h] at hinc
        exact absurd hinc (by simp)

/-- C5 witness: a mirror holding stale encrypted artifacts of both
categories from a prior run, both categories disabled, live plaintext files
present for both: the import leaves both live files exactly as they were. -/
theorem c5_witness :
    (lookupT (copyFromRepo ⟨⟨false, false, []⟩, none⟩
      [(["auth.json.age"], ⟨"AGEBLOB", 384⟩), (["mcp-auth.json.age"], ⟨"AGEBLOB2", 384⟩)]
      [(Dest.dataAuth, ⟨"secret-token", 384⟩),
       (Dest.dataMcpAuth, ⟨"mcp-token", 384⟩)]).1 Dest.dataAuth =
    lookupT [(Dest.dataAuth, ⟨"secret-token", 384⟩),
       (Dest.dataMcpAuth, ⟨"mcp-token", 384⟩)] Dest.dataAuth) ∧
    (lookupT (copyFromRepo ⟨⟨false, false, []⟩, none⟩
      [(["auth.json.age"], ⟨"AGEBLOB", 384⟩), (["mcp-auth.json.age"], ⟨"AGEBLOB2", 384⟩)]
      [(Dest.dataAuth, ⟨"secret-token", 384⟩),
       (Dest.dataMcpAuth, ⟨"mcp-token", 384⟩)]).1 Dest.dataMcpAuth =
    lookupT [(Dest.dataAuth, ⟨"secret-token", 384⟩),
       (Dest.dataMcpAuth, ⟨"mcp-token", 384⟩)] Dest.dataMcpAuth) :=
  ⟨(c5_disabled_category_frame ⟨⟨false, false, []⟩, none⟩
      [(["auth.json.age"], ⟨"AGEBLOB", 384⟩), (["mcp-auth.json.age"], ⟨"AGEBLOB2", 384⟩)]
      [(Dest.dataAuth, ⟨"secret-token", 384⟩),
       (Dest.dataMcpAuth, ⟨"mcp-token", 384⟩)]).1 rfl,
   (c5_disabled_category_frame ⟨⟨false, false, []⟩, none⟩
      [(["auth.json.age"], ⟨"AGEBLOB", 384⟩), (["mcp-auth.json.age"], ⟨"AGEBLOB2", 384⟩)]
      [(Dest.dataAuth, ⟨"secret-token", 384⟩),
       (Dest.dataMcpAuth, ⟨"mcp-token", 384⟩)]).2 rfl⟩

/-- C3 (amended): with a sensitive category enabled and no encryption
instance, CopyToRepo always returns the not-configured error and writes
nothing for either sensitive category; the check, however, runs after the
plain-copy loop, not before every file operation. -/
theorem c3_policy_gate (s : Syncer) (live : LiveTree) (m : MirrorTree)
    (hcat : s.cfg.includeAuth = true ∨ s.cfg.includeMcpAuth = true)
    (henc : s.encryption = none) :
    ((copyToRepo s live m).2 = some .notConfAuth ∨
     (copyToRepo s live m).2 = some .notConfMcpAuth) ∧
    lookupT (copyToRepo s live m).1 ["auth.json.age"] =
      lookupT m ["auth.json.age"] ∧
    lookupT (copyToRepo s live m).1 ["mcp-auth.json.age"] =
      lookupT m ["mcp-auth.json.age"] := by
  have hauth : lookupT (applyWrites m (exportPlainWrites live)) ["auth.json.age"] =
      lookupT m ["auth.json.age"] := by
    rw [lookupT_applyWrites, lastWrite_export_auth]
    rfl
  have hmcp : lookupT (applyWrites m (exportPlainWrites live)) ["mcp-auth.json.age"] =
      lookupT m ["mcp-auth.json.age"] := by
    rw [lookupT_applyWrites, lastWrite_export_mcp]
    rfl
  cases hA : s.cfg.includeAuth with
  | true =>
    simp only [copyToRepo, authPhase, hA, henc, if_true]
    exact ⟨Or.inl trivial, hauth, hmcp⟩
  | false =>
    have hM : s.cfg.includeMcpAuth = true := by
      rcases hcat with hc | hc
      · rw [hA] at hc; exact absurd hc (by simp)
      · exact hc
    simp only [copyToRepo, authPhase, hA, hM, henc, if_true, Bool.false_eq_true, if_false]
    exact ⟨Or.inr trivial, hauth, hmcp⟩

/-- C3 witness: a concrete policy with the auth category enabled and no
encryption configured fails with the not-configured error and leaves both
artifact names absent from an initially empty mirror. -/
theorem c3_witness :
    ((copyToRepo ⟨⟨true, false, []⟩, none⟩
      [(.conf ["agent", "x.json"], ⟨"x", 420⟩)] []).2 = some .notConfAuth ∨
     (copyToRepo ⟨⟨true, false, []⟩, none⟩
      [(.conf ["agent", "x.json"], ⟨"x", 420⟩)] []).2 = some .notConfMcpAuth) ∧
    lookupT (copyToRepo ⟨⟨true, false, []⟩, none⟩
      [(.conf ["agent", "x.json"], ⟨"x", 420⟩)] []).1 ["auth.json.age"] =
      lookupT ([] : MirrorTree) ["auth.json.age"] ∧
    lookupT (copyToRepo ⟨⟨true, false, []⟩, none⟩
      [(.conf ["agent", "x.json"], ⟨"x", 420⟩)] []).1 ["mcp-auth.json.age"] =
      lookupT ([] : MirrorTree) ["mcp-auth.json.age"] :=
  c3_policy_gate ⟨⟨true, false, []⟩, none⟩
    [(.conf ["agent", "x.json"], ⟨"x", 420⟩)] [] (Or.inl rfl) rfl

/-- C3 counterexample: the violation is not caught before file operations
begin; the plain-copy loop has already written the live file into the mirror
when the not-configured error is returned. -/
theorem c3_counterexample :
    (copyToRepo ⟨⟨true, false, []⟩, none⟩
      [(.conf ["agent", "x.json"], ⟨"x", 420⟩)] []).2 = some .notConfAuth ∧
    lookupT (copyToRepo ⟨⟨true, false, []⟩, none⟩
      [(.conf ["agent", "x.json"], ⟨"x", 420⟩)] []).1 ["agent", "x.json"] =
      some ⟨"x", 420⟩ := by decide

/-- C8: with local uncommitted changes present, the composite sync cycle
aborts with the blocked-local-changes error; its trace is just the local
change check, so no pull, no import, no export and no push happen, and both
trees are untouched. -/
theorem c8_blocked_local_changes (g : GitView) (s : Syncer) (live : LiveTree)
    (m : MirrorTree) (h : g.hasChanges = true) :
    (runSync g s live m).1 = some .blockedLocalChanges ∧
    (runSync g s live m).2.1 = [.checkChanges] ∧
    (runSync g s live m).2.2.1 = live ∧
    (runSync g s live m).2.2.2 = m := by
  rw [runSync, runPull, if_pos h]
  exact ⟨rfl, rfl, rfl, rfl⟩

/-- C8 witness: a concrete cycle with dirty local state blocks before any
network operation. -/
theorem c8_witness :
    (runSync ⟨true, none, [], false⟩ ⟨⟨false, false, []⟩, none⟩ [] []).1 =
      some .blockedLocalChanges ∧
    (runSync ⟨true, none, [], false⟩ ⟨⟨false, false, []⟩, none⟩ [] []).2.1 =
      [.checkChanges] ∧
    (runSync ⟨true, none, [], false⟩ ⟨⟨false, false, []⟩, none⟩ [] []).2.2.1 =
      ([] : LiveTree) ∧
    (runSync ⟨true, none, [], false⟩ ⟨⟨false, false, []⟩, none⟩ [] []).2.2.2 =
      ([] : MirrorTree) :=
  c8_blocked_local_changes ⟨true, none, [], false⟩ ⟨⟨false, false, []⟩, none⟩ [] [] rfl

/-- C9 (amended): GetState never computes the new, modified or deleted flags;
every FileInfo it returns has all three flags false whatever the mirror
holds, and no record is produced for mirror-only files (the inventory is
built from the live tree alone). -/
theorem c9_flags_never_computed (isClean hasChanges : Bool) (s : Syncer)
    (live : LiveTree) (hashHex : String → String) (mt : Dest → Nat) :
    ∀ fi ∈ (getState isClean hasChanges s live hashHex mt).localFiles,
      fi.isNew = false ∧ fi.isModified = false ∧ fi.isDeleted = false := by
  intro fi hfi
  simp only [getState, getSyncableFiles, List.mem_append, List.mem_flatMap] at hfi
  rcases hfi with ⟨n, _, hfi⟩ | hfi
  · rw [confRootFiles, List.mem_filterMap] at hfi
    obtain ⟨e, _, he⟩ := hfi
    match e, he with
    | (.conf (mm :: rest), f), he =>
      simp only at he
      split at he
      · split at he
        · exact absurd he (by simp)
        · simp only [Option.some.injEq] at he
          subst he
          exact ⟨rfl, rfl, rfl⟩
      · exact absurd he (by simp)
  · rw [skillsFiles, List.mem_filterMap] at hfi
    obtain ⟨e, _, he⟩ := hfi
    match e, he with
    | (.skills p, f), he =>
      simp only at he
      split at he
      · exact absurd he (by simp)
      · simp only [Option.some.injEq] at he
        subst he
        exact ⟨rfl, rfl, rfl⟩

/-- C9 witness: the record of a concrete live file, evaluated concretely,
has all three flags false. -/
theorem c9_witness :
    (⟨Dest.conf ["agent", "new.json"], "agent/new.json", 5, 0, "fresh",
      false, false, false⟩ : FileInfo).isNew = false ∧
    (⟨Dest.conf ["agent", "new.json"], "agent/new.json", 5, 0, "fresh",
      false, false, false⟩ : FileInfo).isModified = false ∧
    (⟨Dest.conf ["agent", "new.json"], "agent/new.json", 5, 0, "fresh",
      false, false, false⟩ : FileInfo).isDeleted = false :=
  c9_flags_never_computed true true ⟨⟨false, false, []⟩, none⟩
    [(Dest.conf ["agent", "new.json"], ⟨"fresh", 420⟩)] (fun c => c) (fun _ => 0)
    ⟨Dest.conf ["agent", "new.json"], "agent/new.json", 5, 0, "fresh",
      false, false, false⟩ (by decide)

/-- C9 counterexample: a live file absent from the mirror (the mirror is
empty) is reported by GetState with IsNew false, while the claim requires it
to be flagged new; the record for the file is present, so the inventory saw
it. -/
theorem c9_counterexample :
    lookupT ([] : MirrorTree) ["agent", "new.json"] = none ∧
    ((getState true true ⟨⟨false, false, []⟩, none⟩
      [(Dest.conf ["agent", "new.json"], ⟨"fresh", 420⟩)]
      (fun c => c) (fun _ => 0)).localFiles.map (fun fi => fi.relPath)) =
      ["agent/new.json"] ∧
    ((getState true true ⟨⟨false, false, []⟩, none⟩
      [(Dest.conf ["agent", "new.json"], ⟨"fresh", 420⟩)]
      (fun c => c) (fun _ => 0)).localFiles.map (fun fi => fi.isNew)) =
      [false] := by decide

theorem lookupT_writeFileT_self {a : Type} [DecidableEq a] (t : FTree a) (k : a)
    (c : String) (perm : Nat) :
    lookupT (writeFileT t k c perm) k =
      some ⟨c, ((lookupT t k).map (fun o => o.mode)).getD perm⟩ := by
  rw [writeFileT]
  cases h : lookupT t k with
  | none => rw [lookupT_writeT, if_pos rfl]; rfl
  | some old => rw [lookupT_writeT, if_pos rfl]; rfl

theorem authPhase_snd (en : Bool) (encO : Option Encryption) (src : Option SFile)
    (artifact : RPath) (err : SyncError) (mm : MirrorTree) :
    (authPhase en encO src artifact err mm).2 =
      if en && encO.isNone then some err else none := by
  rw [authPhase.eq_def]
  cases en with
  | false => simp
  | true =>
    cases encO with
    | none => simp
    | some enc =>
      cases src with
      | none => simp
      | some f => simp

theorem authPhase_fst_ne (en : Bool) (encO : Option Encryption) (src : Option SFile)
    (artifact : RPath) (err : SyncError) (mm : MirrorTree) (k : RPath)
    (hk : k ≠ artifact) :
    lookupT (authPhase en encO src artifact err mm).1 k = lookupT mm k := by
  rw [authPhase.eq_def]
  cases en with
  | false => rfl
  | true =>
    cases encO with
    | none => rfl
    | some enc =>
      cases src with
      | none => rfl
      | some f =>
        simp only [if_true]
        exact lookupT_writeFileT_ne _ _ _ _ _ hk

theorem authPhase_fst_self (en : Bool) (encO : Option Encryption) (src : Option SFile)
    (artifact : RPath) (err : SyncError) (mm : MirrorTree) :
    lookupT (authPhase en encO src artifact err mm).1 artifact =
      match en, encO, src with
      | true, some enc, some f =>
        some ⟨enc.encrypt f.content,
          ((lookupT mm artifact).map (fun o => o.mode)).getD 0o600⟩
      | _, _, _ => lookupT mm artifact := by
  rw [authPhase.eq_def]
  cases en with
  | false => rfl
  | true =>
    cases encO with
    | none => rfl
    | some enc =>
      cases src with
      | none => rfl
      | some f =>
        simp only [if_true]
        exact lookupT_writeFileT_self _ _ _ _

theorem copyToRepo_snd (s : Syncer) (live : LiveTree) (m : MirrorTree) :
    (copyToRepo s live m).2 =
      if s.cfg.includeAuth && s.encryption.isNone then some .notConfAuth
      else if s.cfg.includeMcpAuth && s.encryption.isNone then some .notConfMcpAuth
      else none := by
  rw [copyToRepo]
  have h1 := authPhase_snd s.cfg.includeAuth s.encryption (lookupT live .dataAuth)
    ["auth.json.age"] .notConfAuth (applyWrites m (exportPlainWrites live))
  cases hc : s.cfg.includeAuth && s.encryption.isNone with
  | true =>
    rw [hc] at h1
    simp only [if_true] at h1
    simp [h1, hc]
  | false =>
    rw [hc] at h1
    simp only [Bool.false_eq_true, if_false] at h1
    simp only [h1]
    rw [authPhase_snd]
    simp [hc]

theorem copyToRepo_fst_ne (s : Syncer) (live : LiveTree) (m : MirrorTree) (k : RPath)
    (hk1 : k ≠ ["auth.json.age"]) (hk2 : k ≠ ["mcp-auth.json.age"]) :
    lookupT (copyToRepo s live m).1 k =
      orO (lastWrite (exportPlainWrites live) k) (lookupT m k) := by
  rw [copyToRepo]
  cases hr : (authPhase s.cfg.includeAuth s.encryption (lookupT live .dataAuth)
      ["auth.json.age"] .notConfAuth (applyWrites m (exportPlainWrites live))).2 with
  | some e =>
    simp only [hr]
    rw [authPhase_fst_ne _ _ _ _ _ _ _ hk1, lookupT_applyWrites]
  | none =>
    simp only [hr]
    rw [authPhase_fst_ne _ _ _ _ _ _ _ hk2, authPhase_fst_ne _ _ _ _ _ _ _ hk1,
      lookupT_applyWrites]

theorem copyToRepo_fst_auth (s : Syncer) (live : LiveTree) (m : MirrorTree) :
    lookupT (copyToRepo s live m).1 ["auth.json.age"] =
      match s.cfg.includeAuth, s.encryption, lookupT live .dataAuth with
      | true, some enc, some f =>
        some ⟨enc.encrypt f.content,
          ((lookupT m ["auth.json.age"]).map (fun o => o.mode)).getD 0o600⟩
      | _, _, _ => lookupT m ["auth.json.age"] := by
  have hm1 : lookupT (applyWrites m (exportPlainWrites live)) ["auth.json.age"] =
      lookupT m ["auth.json.age"] := by
    rw [lookupT_applyWrites, lastWrite_export_auth]
    rfl
  have hr2 := authPhase_snd s.cfg.includeAuth s.encryption (lookupT live .dataAuth)
    ["auth.json.age"] .notConfAuth (applyWrites m (exportPlainWrites live))
  have hr1auth := authPhase_fst_self s.cfg.includeAuth s.encryption
    (lookupT live .dataAuth) ["auth.json.age"] .notConfAuth
    (applyWrites m (exportPlainWrites live))
  rw [copyToRepo]
  cases hA : s.cfg.includeAuth with
  | false =>
    rw [hA] at hr2 hr1auth
    simp only [Bool.false_and, if_false, Bool.false_eq_true] at hr2
    simp only [hr2]
    rw [authPhase_fst_ne _ _ _ _ _ _ _ (by simp), hr1auth, hm1]
  | true =>
    cases hE : s.encryption with
    | none =>
      rw [hA, hE] at hr2 hr1auth
      simp only [Option.isNone_none, Bool.and_true, if_true] at hr2
      simp only [hr2]
      rw [hr1auth, hm1]
    | some enc =>
      rw [hA, hE] at hr2 hr1auth
      simp only [Option.isNone_some, Bool.and_false, if_false, Bool.false_eq_true] at hr2
      simp only [hr2]
      rw [authPhase_fst_ne _ _ _ _ _ _ _ (by simp), hr1auth]
      cases hF : lookupT live .dataAuth with
      | none => exact hm1
      | some f =>
        simp only
        rw [hm1]

theorem copyToRepo_fst_mcp (s : Syncer) (live : LiveTree) (m : MirrorTree) :
    lookupT (copyToRepo s live m).1 ["mcp-auth.json.age"] =
      if s.cfg.includeAuth && s.encryption.isNone then
        lookupT m ["mcp-auth.json.age"]
      else
        match s.cfg.includeMcpAuth, s.encryption, lookupT live .dataMcpAuth with
        | true, some enc, some f =>
          some ⟨enc.encrypt f.content,
            ((lookupT m ["mcp-auth.json.age"]).map (fun o => o.mode)).getD 0o600⟩
        | _, _, _ => lookupT m ["mcp-auth.json.age"] := by
  have hm1 : lookupT (applyWrites m (exportPlainWrites live)) ["mcp-auth.json.age"] =
      lookupT m ["mcp-auth.json.age"] := by
    rw [lookupT_applyWrites, lastWrite_export_mcp]
    rfl
  have hr2 := authPhase_snd s.cfg.includeAuth s.encryption (lookupT live .dataAuth)
    ["auth.json.age"] .notConfAuth (applyWrites m (exportPlainWrites live))
  have hrmcp := authPhase_fst_self s.cfg.includeMcpAuth s.encryption
    (lookupT live .dataMcpAuth) ["mcp-auth.json.age"] .notConfMcpAuth
    (authPhase s.cfg.includeAuth s.encryption (lookupT live .dataAuth)
      ["auth.json.age"] .notConfAuth (applyWrites m (exportPlainWrites live))).1
  have hr1mcp : lookupT (authPhase s.cfg.includeAuth s.encryption
      (lookupT live .dataAuth) ["auth.json.age"] .notConfAuth
      (applyWrites m (exportPlainWrites live))).1 ["mcp-auth.json.age"] =
      lookupT m ["mcp-auth.json.age"] := by
    rw [authPhase_fst_ne _ _ _ _ _ _ _ (by simp), hm1]
  rw [copyToRepo]
  cases hcond : s.cfg.includeAuth && s.encryption.isNone with
  | true =>
    rw [hcond] at hr2
    simp only [if_true] at hr2
    simp only [hr2, hcond, if_true]
    exact hr1mcp
  | false =>
    rw [hcond] at hr2
    simp only [Bool.false_eq_true, if_false] at hr2
    simp only [hr2, hcond, Bool.false_eq_true, if_false]
    cases hM : s.cfg.includeMcpAuth <;> cases hE2 : s.encryption <;>
        cases hF : lookupT live .dataMcpAuth <;>
      (try simp only [hM, hE2, hF] at hrmcp hr1mcp) <;>
      rw [hrmcp] <;>
      first
        | exact hr1mcp
        | (simp only; rw [hr1mcp])

theorem orO_self_assoc {b : Type} (x y : Option b) : orO x (orO x y) = orO x y := by
  cases x with
  | none => rfl
  | some v => rfl

/-- Under a pure (deterministic) encryption capability, exporting twice with
no source changes yields the same mirror as exporting once, file for file,
and the same error outcome.  This is the determinized model; the real age
provider draws fresh randomness per call, which the R-variants below model. -/
theorem copyToRepo_pure_idempotent (s : Syncer) (live : LiveTree) (m : MirrorTree) (k : RPath) :
    lookupT (copyToRepo s live (copyToRepo s live m).1).1 k =
      lookupT (copyToRepo s live m).1 k ∧
    (copyToRepo s live (copyToRepo s live m).1).2 = (copyToRepo s live m).2 := by
  constructor
  · by_cases hk1 : k = ["auth.json.age"]
    · subst hk1
      rw [copyToRepo_fst_auth s live (copyToRepo s live m).1]
      cases hA : s.cfg.includeAuth <;> cases hE : s.encryption <;>
        cases hF : lookupT live .dataAuth
      all_goals try rfl
      rw [copyToRepo_fst_auth s live m]
      simp only [hA, hE, hF]
      rfl
    · by_cases hk2 : k = ["mcp-auth.json.age"]
      · subst hk2
        rw [copyToRepo_fst_mcp s live (copyToRepo s live m).1]
        cases hcond : s.cfg.includeAuth && s.encryption.isNone with
        | true => simp only [if_true]
        | false =>
          simp only [Bool.false_eq_true, if_false]
          cases hM : s.cfg.includeMcpAuth <;> cases hE : s.encryption <;>
            cases hF : lookupT live .dataMcpAuth
          all_goals try rfl
          rw [copyToRepo_fst_mcp s live m]
          simp only [hM, hE, hF, Option.isNone_some, Bool.and_false,
            Bool.false_eq_true, if_false]
          rfl
      · rw [copyToRepo_fst_ne s live (copyToRepo s live m).1 k hk1 hk2,
          copyToRepo_fst_ne s live m k hk1 hk2]
        exact orO_self_assoc _ _
  · rw [copyToRepo_snd, copyToRepo_snd]

theorem authPhaseR_snd (en : Bool) (encO : Option (Nat → String → String))
    (rnd : Nat → Nat) (k : Nat) (src : Option SFile) (artifact : RPath)
    (err : SyncError) (mm : MirrorTree) :
    (authPhaseR en encO rnd k src artifact err mm).2.1 =
      if en && encO.isNone then some err else none := by
  rw [authPhaseR.eq_def]
  cases en with
  | false => simp
  | true =>
    cases encO with
    | none => simp
    | some e =>
      cases src with
      | none => simp
      | some f => simp

theorem authPhaseR_fst_ne (en : Bool) (encO : Option (Nat → String → String))
    (rnd : Nat → Nat) (k : Nat) (src : Option SFile) (artifact : RPath)
    (err : SyncError) (mm : MirrorTree) (q : RPath) (hq : q ≠ artifact) :
    lookupT (authPhaseR en encO rnd k src artifact err mm).1 q = lookupT mm q := by
  rw [authPhaseR.eq_def]
  cases en with
  | false => rfl
  | true =>
    cases encO with
    | none => rfl
    | some e =>
      cases src with
      | none => rfl
      | some f =>
        simp only [if_true]
        exact lookupT_writeFileT_ne _ _ _ _ _ hq

theorem copyToRepoR_snd (cfg : SyncConfig) (encO : Option (Nat → String → String))
    (rnd : Nat → Nat) (k : Nat) (live : LiveTree) (m : MirrorTree) :
    (copyToRepoR cfg encO rnd k live m).2.1 =
      if cfg.includeAuth && encO.isNone then some .notConfAuth
      else if cfg.includeMcpAuth && encO.isNone then some .notConfMcpAuth
      else none := by
  rw [copyToRepoR]
  have h1 := authPhaseR_snd cfg.includeAuth encO rnd k (lookupT live .dataAuth)
    ["auth.json.age"] .notConfAuth (applyWrites m (exportPlainWrites live))
  cases hc : cfg.includeAuth && encO.isNone with
  | true =>
    rw [hc] at h1
    simp only [if_true] at h1
    simp [h1, hc]
  | false =>
    rw [hc] at h1
    simp only [Bool.false_eq_true, if_false] at h1
    simp only [h1]
    rw [authPhaseR_snd]
    simp [hc]

theorem copyToRepoR_fst_ne (cfg : SyncConfig) (encO : Option (Nat → String → String))
    (rnd : Nat → Nat) (k : Nat) (live : LiveTree) (m : MirrorTree) (q : RPath)
    (hq1 : q ≠ ["auth.json.age"]) (hq2 : q ≠ ["mcp-auth.json.age"]) :
    lookupT (copyToRepoR cfg encO rnd k live m).1 q =
      orO (lastWrite (exportPlainWrites live) q) (lookupT m q) := by
  rw [copyToRepoR]
  cases hr : (authPhaseR cfg.includeAuth encO rnd k (lookupT live .dataAuth)
      ["auth.json.age"] .notConfAuth (applyWrites m (exportPlainWrites live))).2.1 with
  | some e =>
    simp only [hr]
    rw [authPhaseR_fst_ne _ _ _ _ _ _ _ _ _ hq1, lookupT_applyWrites]
  | none =>
    simp only [hr]
    rw [authPhaseR_fst_ne _ _ _ _ _ _ _ _ _ hq2,
      authPhaseR_fst_ne _ _ _ _ _ _ _ _ _ hq1, lookupT_applyWrites]

/-- C7 (corrected): with the encryption capability modelled as the age
provider really behaves -- consuming fresh entropy on every call -- a second
export over an unchanged source is byte-identical to the first at every
non-artifact mirror path and produces the same error outcome; the sensitive
artifacts themselves are re-encrypted under fresh entropy, so their bytes
coincide only under a deterministic capability. -/
theorem c7_export_idempotent_plain (cfg : SyncConfig)
    (encO : Option (Nat → String → String)) (rnd : Nat → Nat) (k : Nat)
    (live : LiveTree) (m : MirrorTree) (q : RPath)
    (hq1 : q ≠ ["auth.json.age"]) (hq2 : q ≠ ["mcp-auth.json.age"]) :
    lookupT (copyToRepoR cfg encO rnd (copyToRepoR cfg encO rnd k live m).2.2 live
        (copyToRepoR cfg encO rnd k live m).1).1 q =
      lookupT (copyToRepoR cfg encO rnd k live m).1 q ∧
    (copyToRepoR cfg encO rnd (copyToRepoR cfg encO rnd k live m).2.2 live
        (copyToRepoR cfg encO rnd k live m).1).2.1 =
      (copyToRepoR cfg encO rnd k live m).2.1 := by
  constructor
  · rw [copyToRepoR_fst_ne _ _ _ _ _ _ _ hq1 hq2,
      copyToRepoR_fst_ne _ _ _ _ _ _ _ hq1 hq2]
    exact orO_self_assoc _ _
  · rw [copyToRepoR_snd, copyToRepoR_snd]

/-- C7 counterexample: two successive exports of the same unchanged source
under the entropy-consuming encryption model both succeed but leave
different bytes at the auth artifact path, refuting byte-identity of the
whole mirror. -/
theorem c7_counterexample :
    (copyToRepoR ⟨true, false, []⟩ (some ageLikeEncrypt) (fun n => n) 0
      [(Dest.dataAuth, ⟨"tok", 384⟩)] []).2.1 = none ∧
    (copyToRepoR ⟨true, false, []⟩ (some ageLikeEncrypt) (fun n => n)
      (copyToRepoR ⟨true, false, []⟩ (some ageLikeEncrypt) (fun n => n) 0
        [(Dest.dataAuth, ⟨"tok", 384⟩)] []).2.2
      [(Dest.dataAuth, ⟨"tok", 384⟩)]
      (copyToRepoR ⟨true, false, []⟩ (some ageLikeEncrypt) (fun n => n) 0
        [(Dest.dataAuth, ⟨"tok", 384⟩)] []).1).2.1 = none ∧
    lookupT (copyToRepoR ⟨true, false, []⟩ (some ageLikeEncrypt) (fun n => n)
      (copyToRepoR ⟨true, false, []⟩ (some ageLikeEncrypt) (fun n => n) 0
        [(Dest.dataAuth, ⟨"tok", 384⟩)] []).2.2
      [(Dest.dataAuth, ⟨"tok", 384⟩)]
      (copyToRepoR ⟨true, false, []⟩ (some ageLikeEncrypt) (fun n => n) 0
        [(Dest.dataAuth, ⟨"tok", 384⟩)] []).1).1 ["auth.json.age"] ≠
    lookupT (copyToRepoR ⟨true, false, []⟩ (some ageLikeEncrypt) (fun n => n) 0
      [(Dest.dataAuth, ⟨"tok", 384⟩)] []).1 ["auth.json.age"] := by decide

/-- C7 witness: the amended theorem applied at a concrete configuration,
source tree (a config file plus the auth token) and the plain config path. -/
theorem c7_witness :
    lookupT (copyToRepoR ⟨true, true, []⟩ (some ageLikeEncrypt) (fun n => n)
        (copyToRepoR ⟨true, true, []⟩ (some ageLikeEncrypt) (fun n => n) 0
          [(Dest.conf ["opencode.json"], ⟨"{}", 420⟩),
           (Dest.dataAuth, ⟨"tokA", 384⟩), (Dest.dataMcpAuth, ⟨"tokM", 384⟩)] []).2.2
        [(Dest.conf ["opencode.json"], ⟨"{}", 420⟩),
         (Dest.dataAuth, ⟨"tokA", 384⟩), (Dest.dataMcpAuth, ⟨"tokM", 384⟩)]
        (copyToRepoR ⟨true, true, []⟩ (some ageLikeEncrypt) (fun n => n) 0
          [(Dest.conf ["opencode.json"], ⟨"{}", 420⟩),
           (Dest.dataAuth, ⟨"tokA", 384⟩), (Dest.dataMcpAuth, ⟨"tokM", 384⟩)] []).1).1
      ["opencode.json"] =
      lookupT (copyToRepoR ⟨true, true, []⟩ (some ageLikeEncrypt) (fun n => n) 0
        [(Dest.conf ["opencode.json"], ⟨"{}", 420⟩),
         (Dest.dataAuth, ⟨"tokA", 384⟩), (Dest.dataMcpAuth, ⟨"tokM", 384⟩)] []).1
        ["opencode.json"] :=
  (c7_export_idempotent_plain ⟨true, true, []⟩ (some ageLikeEncrypt) (fun n => n) 0
    [(Dest.conf ["opencode.json"], ⟨"{}", 420⟩),
     (Dest.dataAuth, ⟨"tokA", 384⟩), (Dest.dataMcpAuth, ⟨"tokM", 384⟩)] []
    ["opencode.json"] (by decide) (by decide)).1

theorem importStep_err_shape {s : Syncer} {p : RPath} {f : SFile} {er : SyncError}
    (h : importStep s p f = .err er) :
    (er = .decryptNotConfAuth ∧ s.cfg.includeAuth = true ∧ s.encryption = none) ∨
    (er = .decryptNotConfMcpAuth ∧ s.cfg.includeMcpAuth = true ∧ s.encryption = none) := by
  rw [importStep.eq_def] at h
  split at h
  · exact absurd h (by simp)
  · split at h
    · exact absurd h (by simp)
    · split at h
      · rename_i hcond
        simp only [Bool.and_eq_true, decide_eq_true_eq] at hcond
        cases henc : s.encryption with
        | none =>
          rw [henc] at h
          simp only [ImpAct.err.injEq] at h
          exact Or.inl ⟨h.symm, hcond.2, rfl⟩
        | some enc => rw [henc] at h; exact absurd h (by simp)
      · split at h
        · rename_i hcond
          simp only [Bool.and_eq_true, decide_eq_true_eq] at hcond
          cases henc : s.encryption with
          | none =>
            rw [henc] at h
            simp only [ImpAct.err.injEq] at h
            exact Or.inr ⟨h.symm, hcond.2, rfl⟩
          | some enc => rw [henc] at h; exact absurd h (by simp)
        · split at h
          · split at h <;> exact absurd h (by simp)
          · exact absurd h (by simp)

/-- Under a well-formed policy (an encryption instance configured, or both
sensitive categories disabled) the walk body never errors. -/
theorem importStep_no_err {s : Syncer} {p : RPath} {f : SFile} {er : SyncError}
    (hpol : s.encryption.isSome = true ∨
      (s.cfg.includeAuth = false ∧ s.cfg.includeMcpAuth = false)) :
    importStep s p f ≠ .err er := by
  intro h
  rcases importStep_err_shape h with ⟨_, hinc, henc⟩ | ⟨_, hinc, henc⟩ <;>
    rcases hpol with hp | hp
  · rw [henc] at hp; simp at hp
  · rw [hp.1] at hinc; exact absurd hinc (by simp)
  · rw [henc] at hp; simp at hp
  · rw [hp.2] at hinc; exact absurd hinc (by simp)

theorem fold_absorb (s : Syncer) :
    ∀ (m : MirrorTree) (st : LiveTree × Option SyncError) (er : SyncError),
      st.2 = some er →
      m.foldl (fun st e => applyAct st e.1 e.2 s) st = st := by
  intro m
  induction m with
  | nil => intro st er h; rfl
  | cons e rest ih =>
    intro st er h
    rw [List.foldl_cons]
    have : applyAct st e.1 e.2 s = st := by
      rw [applyAct, h]
    rw [this]
    exact ih st er h

theorem fold_no_err (s : Syncer) :
    ∀ (m : MirrorTree) (st : LiveTree × Option SyncError),
      st.2 = none →
      (∀ e ∈ m, ∀ er, importStep s e.1 e.2 ≠ .err er) →
      (m.foldl (fun st e => applyAct st e.1 e.2 s) st).2 = none := by
  intro m
  induction m with
  | nil => intro st h _; exact h
  | cons e rest ih =>
    intro st h hne
    rw [List.foldl_cons]
    refine ih _ ?_ (fun x hx => hne x (List.mem_cons_of_mem e hx))
    rw [applyAct, h]
    cases hi : importStep s e.1 e.2 with
    | skip => exact h
    | plainCopy d g => rfl
    | decryptWrite d c => rfl
    | err er => exact absurd hi (hne e (List.mem_cons_self e rest) er)

theorem fold_err_kinds (s : Syncer) :
    ∀ (m : MirrorTree) (st : LiveTree × Option SyncError),
      (st.2 = none ∨ st.2 = some .decryptNotConfAuth ∨ st.2 = some .decryptNotConfMcpAuth) →
      ((m.foldl (fun st e => applyAct st e.1 e.2 s) st).2 = none ∨
       (m.foldl (fun st e => applyAct st e.1 e.2 s) st).2 = some .decryptNotConfAuth ∨
       (m.foldl (fun st e => applyAct st e.1 e.2 s) st).2 = some .decryptNotConfMcpAuth) := by
  intro m
  induction m with
  | nil => intro st h; exact h
  | cons e rest ih =>
    intro st h
    rw [List.foldl_cons]
    refine ih _ ?_
    rcases h with h | h | h
    · rw [applyAct, h]
      cases hi : importStep s e.1 e.2 with
      | skip => exact Or.inl h
      | plainCopy d g => exact Or.inl rfl
      | decryptWrite d c => exact Or.inl rfl
      | err er =>
        rcases importStep_err_shape hi with ⟨her, _, _⟩ | ⟨her, _, _⟩
        · subst her; exact Or.inr (Or.inl rfl)
        · subst her; exact Or.inr (Or.inr rfl)
    · rw [applyAct, h]; exact Or.inr (Or.inl h)
    · rw [applyAct, h]; exact Or.inr (Or.inr h)

theorem fold_err_of_mem (s : Syncer) :
    ∀ (m : MirrorTree) (st : LiveTree × Option SyncError),
      st.2 = none →
      (∃ e0 ∈ m, ∃ er, importStep s e0.1 e0.2 = .err er) →
      (m.foldl (fun st e => applyAct st e.1 e.2 s) st).2 ≠ none := by
  intro m
  induction m with
  | nil =>
    intro st _ hex
    obtain ⟨e0, he0, _⟩ := hex
    exact absurd he0 (by simp)
  | cons e rest ih =>
    intro st hst hex
    rw [List.foldl_cons]
    cases hi : importStep s e.1 e.2 with
    | err er =>
      have happ : applyAct st e.1 e.2 s = (st.1, some er) := by
        rw [applyAct, hst, hi]
      rw [happ, fold_absorb s rest (st.1, some er) er rfl]
      simp
    | skip =>
      obtain ⟨e0, he0, er, her⟩ := hex
      rcases List.mem_cons.mp he0 with rfl | he0
      · rw [her] at hi; exact absurd hi (by simp)
      · refine ih _ ?_ ⟨e0, he0, er, her⟩
        rw [applyAct, hst, hi]
        exact hst
    | plainCopy d g =>
      obtain ⟨e0, he0, er, her⟩ := hex
      rcases List.mem_cons.mp he0 with rfl | he0
      · rw [her] at hi; exact absurd hi (by simp)
      · refine ih _ ?_ ⟨e0, he0, er, her⟩
        rw [applyAct, hst, hi]
    | decryptWrite d c =>
      obtain ⟨e0, he0, er, her⟩ := hex
      rcases List.mem_cons.mp he0 with rfl | he0
      · rw [her] at hi; exact absurd hi (by simp)
      · refine ih _ ?_ ⟨e0, he0, er, her⟩
        rw [applyAct, hst, hi]

theorem lookupT_some_mem {a : Type} [DecidableEq a] {t : FTree a} {k : a} {f : SFile}
    (h : lookupT t k = some f) : (k, f) ∈ t := by
  rw [lookupT] at h
  cases hf : t.find? (fun e => decide (e.1 = k)) with
  | none => rw [hf] at h; simp at h
  | some e =>
    rw [hf] at h
    simp only [Option.map_some', Option.some.injEq] at h
    have hm := List.mem_of_find?_eq_some hf
    have hp := List.find?_some hf
    simp only [decide_eq_true_eq] at hp
    have he : e = (k, f) := by
      obtain ⟨k', f'⟩ := e
      have hp' : k' = k := hp
      have h' : f' = f := h
      rw [hp', h']
    rw [← he]
    exact hm

theorem mem_split_nodup {m : MirrorTree} {k : RPath} {f : SFile}
    (hmem : (k, f) ∈ m) (hnd : (m.map Prod.fst).Nodup) :
    ∃ m1 m2, m = m1 ++ (k, f) :: m2 ∧ (∀ e ∈ m1, e.1 ≠ k) ∧ (∀ e ∈ m2, e.1 ≠ k) := by
  obtain ⟨m1, m2, rfl⟩ := List.append_of_mem hmem
  refine ⟨m1, m2, rfl, ?_, ?_⟩
  · intro e he hek
    rw [List.map_append, List.map_cons, List.nodup_append] at hnd
    have hmem2 : e.1 ∈ (k, f).1 :: m2.map Prod.fst := by
      rw [hek]
      exact List.mem_cons_self _ _
    exact hnd.2.2 (List.mem_map_of_mem Prod.fst he) hmem2
  · intro e he hek
    rw [List.map_append, List.map_cons, List.nodup_append, List.nodup_cons] at hnd
    have hkm : k ∈ m2.map Prod.fst := by
      rw [← hek]
      exact List.mem_map_of_mem Prod.fst he
    exact hnd.2.1.1 hkm

/-- Walk result at a destination written exactly once: the walk reaches the
writing entry (no earlier entry errors), writes it, and no other entry
touches the destination. -/
theorem fold_lookup_target (s : Syncer) (d : Dest) (m1 m2 : MirrorTree)
    (p0 : RPath) (f0 : SFile) (live : LiveTree)
    (h1 : ∀ e ∈ m1, (∀ g, importStep s e.1 e.2 ≠ .plainCopy d g) ∧
      (∀ c, importStep s e.1 e.2 ≠ .decryptWrite d c) ∧
      (∀ er, importStep s e.1 e.2 ≠ .err er))
    (h2 : ∀ e ∈ m2, (∀ g, importStep s e.1 e.2 ≠ .plainCopy d g) ∧
      (∀ c, importStep s e.1 e.2 ≠ .decryptWrite d c)) :
    (∀ g, importStep s p0 f0 = .plainCopy d g →
      lookupT (copyFromRepo s (m1 ++ (p0, f0) :: m2) live).1 d = some g) ∧
    (∀ c, importStep s p0 f0 = .decryptWrite d c →
      (lookupT (copyFromRepo s (m1 ++ (p0, f0) :: m2) live).1 d).map
        (fun g => g.content) = some c) := by
  have hm1none : (m1.foldl (fun st e => applyAct st e.1 e.2 s) (live, none)).2 = none :=
    fold_no_err s m1 (live, none) rfl (fun e he er => (h1 e he).2.2 er)
  have hsplit : copyFromRepo s (m1 ++ (p0, f0) :: m2) live =
      m2.foldl (fun st e => applyAct st e.1 e.2 s)
        (applyAct (m1.foldl (fun st e => applyAct st e.1 e.2 s) (live, none)) p0 f0 s) := by
    rw [copyFromRepo, List.foldl_append, List.foldl_cons]
  constructor
  · intro g hstep
    rw [hsplit]
    have happ : applyAct (m1.foldl (fun st e => applyAct st e.1 e.2 s) (live, none)) p0 f0 s =
        (writeT (m1.foldl (fun st e => applyAct st e.1 e.2 s) (live, none)).1 d g, none) := by
      rw [applyAct, hm1none, hstep]
    rw [happ,
      copyFromRepo_frame s d m2 _ (fun e he => (h2 e he).1) (fun e he => (h2 e he).2)]
    rw [lookupT_writeT, if_pos rfl]
  · intro c hstep
    rw [hsplit]
    have happ : applyAct (m1.foldl (fun st e => applyAct st e.1 e.2 s) (live, none)) p0 f0 s =
        (writeFileT (m1.foldl (fun st e => applyAct st e.1 e.2 s) (live, none)).1 d c 0o600,
          none) := by
      rw [applyAct, hm1none, hstep]
    rw [happ,
      copyFromRepo_frame s d m2 _ (fun e he => (h2 e he).1) (fun e he => (h2 e he).2)]
    rw [lookupT_writeFileT_self]
    rfl

/-- C4: an encrypted artifact found in the mirror walk with its category
enabled (and not excluded) requires decryption capability, for either fixed
artifact name: with no encryption instance the import aborts with a
decryption-not-configured error (for whichever artifact the walk reaches
first), and with one configured the decrypted plaintext is written to the
corresponding live data-directory file (auth.json for auth.json.age,
mcp-auth.json for mcp-auth.json.age), overwriting whatever was there. -/
theorem c4_import_encrypted_artifact (s : Syncer) (m : MirrorTree) (live : LiveTree)
    (hnd : (m.map Prod.fst).Nodup) :
    (∀ cblob : SFile, lookupT m ["auth.json.age"] = some cblob →
      s.cfg.includeAuth = true →
      shouldExclude s.cfg.exclude "auth.json.age" = false →
      (s.encryption = none →
        ((copyFromRepo s m live).2 = some .decryptNotConfAuth ∨
         (copyFromRepo s m live).2 = some .decryptNotConfMcpAuth)) ∧
      (∀ enc, s.encryption = some enc →
        (lookupT (copyFromRepo s m live).1 .dataAuth).map (fun g => g.content) =
          some (enc.decrypt cblob.content))) ∧
    (∀ cblob : SFile, lookupT m ["mcp-auth.json.age"] = some cblob →
      s.cfg.includeMcpAuth = true →
      shouldExclude s.cfg.exclude "mcp-auth.json.age" = false →
      (s.encryption = none →
        ((copyFromRepo s m live).2 = some .decryptNotConfAuth ∨
         (copyFromRepo s m live).2 = some .decryptNotConfMcpAuth)) ∧
      (∀ enc, s.encryption = some enc →
        (lookupT (copyFromRepo s m live).1 .dataMcpAuth).map (fun g => g.content) =
          some (enc.decrypt cblob.content))) := by
  constructor
  · intro cblob hmem hinc hex
    have hartmem : (["auth.json.age"], cblob) ∈ m := lookupT_some_mem hmem
    constructor
    · intro henc
      have hstep : importStep s ["auth.json.age"] cblob = .err .decryptNotConfAuth := by
        rw [importStep.eq_def]
        have hj : joinPath ["auth.json.age"] = "auth.json.age" := rfl
        simp only [hj, hex, hinc, henc]
        simp
      have hne := fold_err_of_mem s m (live, none) rfl
        ⟨(["auth.json.age"], cblob), hartmem, .decryptNotConfAuth, hstep⟩
      have hkinds := fold_err_kinds s m (live, none) (Or.inl rfl)
      rw [copyFromRepo]
      rcases hkinds with hk | hk | hk
      · exact absurd hk hne
      · exact Or.inl hk
      · exact Or.inr hk
    · intro enc henc
      have hstep : importStep s ["auth.json.age"] cblob =
          .decryptWrite .dataAuth (enc.decrypt cblob.content) := by
        rw [importStep.eq_def]
        have hj : joinPath ["auth.json.age"] = "auth.json.age" := rfl
        simp only [hj, hex, hinc, henc]
        simp
      obtain ⟨m1, m2, hm, hk1, hk2⟩ := mem_split_nodup hartmem hnd
      have hcond1 : ∀ e ∈ m1, (∀ g, importStep s e.1 e.2 ≠ .plainCopy .dataAuth g) ∧
          (∀ c, importStep s e.1 e.2 ≠ .decryptWrite .dataAuth c) ∧
          (∀ er, importStep s e.1 e.2 ≠ .err er) := by
        intro e he
        refine ⟨fun g hcp => ?_, fun c hdw => ?_,
          fun er => importStep_no_err (Or.inl (by rw [henc]; rfl))⟩
        · exact absurd rfl (importStep_plainCopy_ne_data hcp).1.symm
        · rcases importStep_decryptWrite_shape hdw with ⟨_, hp, _, _⟩ | ⟨hd, _, _, _⟩
          · exact hk1 e he hp
          · exact absurd hd.symm (by simp)
      have hcond2 : ∀ e ∈ m2, (∀ g, importStep s e.1 e.2 ≠ .plainCopy .dataAuth g) ∧
          (∀ c, importStep s e.1 e.2 ≠ .decryptWrite .dataAuth c) := by
        intro e he
        refine ⟨fun g hcp => ?_, fun c hdw => ?_⟩
        · exact absurd rfl (importStep_plainCopy_ne_data hcp).1.symm
        · rcases importStep_decryptWrite_shape hdw with ⟨_, hp, _, _⟩ | ⟨hd, _, _, _⟩
          · exact hk2 e he hp
          · exact absurd hd.symm (by simp)
      rw [hm]
      exact (fold_lookup_target s .dataAuth m1 m2 ["auth.json.age"] cblob live
        hcond1 hcond2).2 (enc.decrypt cblob.content) hstep
  · intro cblob hmem hinc hex
    have hartmem : (["mcp-auth.json.age"], cblob) ∈ m := lookupT_some_mem hmem
    have hnea : (["mcp-auth.json.age"] : RPath) ≠ ["auth.json.age"] := by decide
    constructor
    · intro henc
      have hstep : importStep s ["mcp-auth.json.age"] cblob =
          .err .decryptNotConfMcpAuth := by
        rw [importStep.eq_def]
        have hj : joinPath ["mcp-auth.json.age"] = "mcp-auth.json.age" := rfl
        simp only [hj, hex, hinc, henc]
        simp [hnea]
      have hne := fold_err_of_mem s m (live, none) rfl
        ⟨(["mcp-auth.json.age"], cblob), hartmem, .decryptNotConfMcpAuth, hstep⟩
      have hkinds := fold_err_kinds s m (live, none) (Or.inl rfl)
      rw [copyFromRepo]
      rcases hkinds with hk | hk | hk
      · exact absurd hk hne
      · exact Or.inl hk
      · exact Or.inr hk
    · intro enc henc
      have hstep : importStep s ["mcp-auth.json.age"] cblob =
          .decryptWrite .dataMcpAuth (enc.decrypt cblob.content) := by
        rw [importStep.eq_def]
        have hj : joinPath ["mcp-auth.json.age"] = "mcp-auth.json.age" := rfl
        simp only [hj, hex, hinc, henc]
        simp [hnea]
      obtain ⟨m1, m2, hm, hk1, hk2⟩ := mem_split_nodup hartmem hnd
      have hcond1 : ∀ e ∈ m1, (∀ g, importStep s e.1 e.2 ≠ .plainCopy .dataMcpAuth g) ∧
          (∀ c, importStep s e.1 e.2 ≠ .decryptWrite .dataMcpAuth c) ∧
          (∀ er, importStep s e.1 e.2 ≠ .err er) := by
        intro e he
        refine ⟨fun g hcp => ?_, fun c hdw => ?_,
          fun er => importStep_no_err (Or.inl (by rw [henc]; rfl))⟩
        · exact absurd rfl (importStep_plainCopy_ne_data hcp).2.symm
        · rcases importStep_decryptWrite_shape hdw with ⟨hd, _, _, _⟩ | ⟨_, hp, _, _⟩
          · exact absurd hd.symm (by simp)
          · exact hk1 e he hp
      have hcond2 : ∀ e ∈ m2, (∀ g, importStep s e.1 e.2 ≠ .plainCopy .dataMcpAuth g) ∧
          (∀ c, importStep s e.1 e.2 ≠ .decryptWrite .dataMcpAuth c) := by
        intro e he
        refine ⟨fun g hcp => ?_, fun c hdw => ?_⟩
        · exact absurd rfl (importStep_plainCopy_ne_data hcp).2.symm
        · rcases importStep_decryptWrite_shape hdw with ⟨hd, _, _, _⟩ | ⟨_, hp, _, _⟩
          · exact absurd hd.symm (by simp)
          · exact hk2 e he hp
      rw [hm]
      exact (fold_lookup_target s .dataMcpAuth m1 m2 ["mcp-auth.json.age"] cblob live
        hcond1 hcond2).2 (enc.decrypt cblob.content) hstep

/-- C4 witness: with a concrete mirror holding both encrypted artifacts,
both categories enabled and a configured decryption capability, the import
writes each decrypted content to its live data-directory file. -/
theorem c4_witness :
    ((lookupT (copyFromRepo ⟨⟨true, true, []⟩, some ⟨fun c => c, fun c => c⟩⟩
      [(["auth.json.age"], ⟨"CIPHER-A", 384⟩), (["mcp-auth.json.age"], ⟨"CIPHER-M", 384⟩)]
      [(Dest.dataAuth, ⟨"OLD", 420⟩)]).1 Dest.dataAuth).map (fun g => g.content) =
      some ((⟨fun c => c, fun c => c⟩ : Encryption).decrypt "CIPHER-A")) ∧
    ((lookupT (copyFromRepo ⟨⟨true, true, []⟩, some ⟨fun c => c, fun c => c⟩⟩
      [(["auth.json.age"], ⟨"CIPHER-A", 384⟩), (["mcp-auth.json.age"], ⟨"CIPHER-M", 384⟩)]
      [(Dest.dataAuth, ⟨"OLD", 420⟩)]).1 Dest.dataMcpAuth).map (fun g => g.content) =
      some ((⟨fun c => c, fun c => c⟩ : Encryption).decrypt "CIPHER-M")) :=
  ⟨((c4_import_encrypted_artifact ⟨⟨true, true, []⟩, some ⟨fun c => c, fun c => c⟩⟩
      [(["auth.json.age"], ⟨"CIPHER-A", 384⟩), (["mcp-auth.json.age"], ⟨"CIPHER-M", 384⟩)]
      [(Dest.dataAuth, ⟨"OLD", 420⟩)] (by decide)).1
      ⟨"CIPHER-A", 384⟩ (by decide) rfl (by decide)).2
      ⟨fun c => c, fun c => c⟩ rfl,
   ((c4_import_encrypted_artifact ⟨⟨true, true, []⟩, some ⟨fun c => c, fun c => c⟩⟩
      [(["auth.json.age"], ⟨"CIPHER-A", 384⟩), (["mcp-auth.json.age"], ⟨"CIPHER-M", 384⟩)]
      [(Dest.dataAuth, ⟨"OLD", 420⟩)] (by decide)).2
      ⟨"CIPHER-M", 384⟩ (by decide) rfl (by decide)).2
      ⟨fun c => c, fun c => c⟩ rfl⟩

theorem mem_confRootWrites {live : LiveTree} {n : String} {w : RPath × SFile} :
    w ∈ confRootWrites live n ↔
      ∃ rest f, w = (n :: rest, f) ∧ (.conf (n :: rest), f) ∈ live := by
  rw [confRootWrites, List.mem_filterMap]
  constructor
  · rintro ⟨e, he, hmatch⟩
    match e, hmatch with
    | (.conf (mm :: rest), g), hmatch =>
      simp only at hmatch
      split at hmatch
      · rename_i hm
        simp only [Option.some.injEq] at hmatch
        refine ⟨rest, g, ?_, ?_⟩
        · rw [← hmatch, hm]
        · rw [← hm]
          exact he
      · exact absurd hmatch (by simp)
  · rintro ⟨rest, f, rfl, hmem⟩
    exact ⟨(.conf (n :: rest), f), hmem, by simp⟩

theorem mem_skillsWrites {live : LiveTree} {w : RPath × SFile} :
    w ∈ skillsWrites live ↔
      ∃ q f, w = ("claude-skills" :: q, f) ∧ (.skills q, f) ∈ live := by
  rw [skillsWrites, List.mem_filterMap]
  constructor
  · rintro ⟨e, he, hmatch⟩
    match e, hmatch with
    | (.skills q, g), hmatch =>
      simp only [Option.some.injEq] at hmatch
      subst hmatch
      exact ⟨q, g, rfl, he⟩
  · rintro ⟨q, f, rfl, hmem⟩
    exact ⟨(.skills q, f), hmem, by simp⟩

theorem mem_exportPlainWrites {live : LiveTree} {w : RPath × SFile} :
    w ∈ exportPlainWrites live ↔
      (∃ n rest f, w = (n :: rest, f) ∧ n ∈ syncableRootNames ∧
        (.conf (n :: rest), f) ∈ live) ∨
      (∃ q f, w = ("claude-skills" :: q, f) ∧ (.skills q, f) ∈ live) := by
  rw [exportPlainWrites, List.mem_append, List.mem_flatMap]
  constructor
  · rintro (⟨n, hn, hw⟩ | hw)
    · obtain ⟨rest, f, rfl, hmem⟩ := mem_confRootWrites.mp hw
      exact Or.inl ⟨n, rest, f, rfl, hn, hmem⟩
    · obtain ⟨q, f, rfl, hmem⟩ := mem_skillsWrites.mp hw
      exact Or.inr ⟨q, f, rfl, hmem⟩
  · rintro (⟨n, rest, f, rfl, hn, hmem⟩ | ⟨q, f, rfl, hmem⟩)
    · exact Or.inl ⟨n, hn, mem_confRootWrites.mpr ⟨rest, f, rfl, hmem⟩⟩
    · exact Or.inr (mem_skillsWrites.mpr ⟨q, f, rfl, hmem⟩)

theorem nodup_keys_unique {a : Type} [DecidableEq a] {t : FTree a} {k : a}
    {f1 f2 : SFile} (hnd : (t.map Prod.fst).Nodup)
    (h1 : (k, f1) ∈ t) (h2 : (k, f2) ∈ t) : f1 = f2 := by
  induction t with
  | nil => exact absurd h1 (by simp)
  | cons e rest ih =>
    rw [List.map_cons, List.nodup_cons] at hnd
    rcases List.mem_cons.mp h1 with rfl | h1' <;> rcases List.mem_cons.mp h2 with he | h2'
    · cases he; rfl
    · exact absurd (List.mem_map_of_mem Prod.fst h2') (by simpa using hnd.1)
    · rw [← he] at hnd
      exact absurd (List.mem_map_of_mem Prod.fst h1') (by simpa using hnd.1)
    · exact ih hnd.2 h1' h2'

theorem lastWrite_some_mem {a : Type} [DecidableEq a] {ws : List (a × SFile)} {k : a}
    {f : SFile} (h : lastWrite ws k = some f) : (k, f) ∈ ws := by
  induction ws with
  | nil => simp [lastWrite] at h
  | cons w rest ih =>
    rw [lastWrite] at h
    cases hl : lastWrite rest k with
    | some g =>
      rw [hl] at h
      simp only [orO] at h
      cases h
      exact List.mem_cons_of_mem w (ih hl)
    | none =>
      rw [hl] at h
      simp only [orO] at h
      split at h
      · rename_i hk
        simp only [Option.some.injEq] at h
        subst h
        rw [← hk]
        exact List.mem_cons_self w rest
      · exact absurd h (by simp)

theorem lastWrite_of_unique {a : Type} [DecidableEq a] {k : a} {f : SFile} :
    ∀ ws : List (a × SFile), (k, f) ∈ ws → (∀ f', (k, f') ∈ ws → f' = f) →
      lastWrite ws k = some f := by
  intro ws
  induction ws with
  | nil =>
    intro hm _
    exact absurd hm (by simp)
  | cons w rest ih =>
    intro hm hu
    rw [lastWrite]
    cases hl : lastWrite rest k with
    | some g =>
      have hg := hu g (List.mem_cons_of_mem w (lastWrite_some_mem hl))
      simp only [orO]
      rw [hg]
    | none =>
      rcases List.mem_cons.mp hm with rfl | hm2
      · simp [orO]
      · have hlr := ih hm2 (fun g hg => hu g (List.mem_cons_of_mem w hg))
        rw [hlr] at hl
        exact absurd hl (by simp)

theorem eraseKeyT_sublist {a : Type} [DecidableEq a] :
    ∀ (t : FTree a) (k : a), (eraseKeyT t k).Sublist t := by
  intro t k
  induction t with
  | nil => simp [eraseKeyT]
  | cons e rest ih =>
    rw [eraseKeyT]
    split
    · exact ih.cons e
    · exact ih.cons₂ e

theorem eraseKeyT_key_not_mem {a : Type} [DecidableEq a] :
    ∀ (t : FTree a) (k : a), k ∉ (eraseKeyT t k).map Prod.fst := by
  intro t k
  induction t with
  | nil => simp [eraseKeyT]
  | cons e rest ih =>
    rw [eraseKeyT]
    split
    · exact ih
    · rename_i hne
      simp only [List.map_cons, List.mem_cons]
      rintro (h | h)
      · exact hne h.symm
      · exact ih h

theorem writeT_keys_nodup {a : Type} [DecidableEq a] (t : FTree a) (k : a) (f : SFile)
    (hnd : (t.map Prod.fst).Nodup) : ((writeT t k f).map Prod.fst).Nodup := by
  rw [writeT, List.map_cons, List.nodup_cons]
  exact ⟨eraseKeyT_key_not_mem t k,
    (((eraseKeyT_sublist t k).map Prod.fst).nodup hnd)⟩

theorem writeFileT_keys_nodup {a : Type} [DecidableEq a] (t : FTree a) (k : a)
    (c : String) (perm : Nat) (hnd : (t.map Prod.fst).Nodup) :
    ((writeFileT t k c perm).map Prod.fst).Nodup := by
  rw [writeFileT]
  cases lookupT t k with
  | some old => exact writeT_keys_nodup t k _ hnd
  | none => exact writeT_keys_nodup t k _ hnd

theorem applyWrites_keys_nodup {a : Type} [DecidableEq a] (ws : List (a × SFile)) :
    ∀ (t : FTree a), (t.map Prod.fst).Nodup → ((applyWrites t ws).map Prod.fst).Nodup := by
  induction ws with
  | nil => intro t h; exact h
  | cons w rest ih =>
    intro t h
    exact ih (writeT t w.1 w.2) (writeT_keys_nodup t w.1 w.2 h)

theorem authPhase_keys_nodup (en : Bool) (encO : Option Encryption) (src : Option SFile)
    (artifact : RPath) (err : SyncError) (mm : MirrorTree)
    (hnd : (mm.map Prod.fst).Nodup) :
    (((authPhase en encO src artifact err mm).1).map Prod.fst).Nodup := by
  rw [authPhase.eq_def]
  cases en with
  | false => exact hnd
  | true =>
    cases encO with
    | none => exact hnd
    | some enc =>
      cases src with
      | none => exact hnd
      | some f =>
        simp only [if_true]
        exact writeFileT_keys_nodup _ _ _ _ hnd

theorem copyToRepo_keys_nodup (s : Syncer) (live : LiveTree) (m : MirrorTree)
    (hnd : (m.map Prod.fst).Nodup) :
    (((copyToRepo s live m).1).map Prod.fst).Nodup := by
  rw [copyToRepo]
  have h1 := applyWrites_keys_nodup (exportPlainWrites live) m hnd
  have h2 := authPhase_keys_nodup s.cfg.includeAuth s.encryption (lookupT live .dataAuth)
    ["auth.json.age"] .notConfAuth _ h1
  cases hr : (authPhase s.cfg.includeAuth s.encryption (lookupT live .dataAuth)
      ["auth.json.age"] .notConfAuth (applyWrites m (exportPlainWrites live))).2 with
  | some e =>
    simp only [hr]
    exact h2
  | none =>
    simp only [hr]
    exact authPhase_keys_nodup _ _ _ _ _ _ h2

theorem export_lookup_conf (s : Syncer) (live : LiveTree)
    (hnd : (live.map Prod.fst).Nodup) (n : String) (rest : RPath) (f : SFile)
    (hroot : n ∈ syncableRootNames)
    (hl : lookupT live (.conf (n :: rest)) = some f) :
    lookupT (copyToRepo s live []).1 (n :: rest) = some f := by
  have hcs : ¬ "claude-skills" ∈ syncableRootNames := by decide
  have hne1 : (n :: rest) ≠ ["auth.json.age"] := by
    intro h
    simp only [List.cons.injEq] at h
    rw [h.1] at hroot
    revert hroot
    decide
  have hne2 : (n :: rest) ≠ ["mcp-auth.json.age"] := by
    intro h
    simp only [List.cons.injEq] at h
    rw [h.1] at hroot
    revert hroot
    decide
  rw [copyToRepo_fst_ne s live [] (n :: rest) hne1 hne2]
  have hmem : (n :: rest, f) ∈ exportPlainWrites live :=
    mem_exportPlainWrites.mpr (Or.inl ⟨n, rest, f, rfl, hroot, lookupT_some_mem hl⟩)
  have huniq : ∀ f', (n :: rest, f') ∈ exportPlainWrites live → f' = f := by
    intro f' hf'
    rcases mem_exportPlainWrites.mp hf' with ⟨n', rest', f'', heq, _, hmem'⟩ |
      ⟨q, f'', heq, _⟩
    · simp only [Prod.mk.injEq, List.cons.injEq] at heq
      obtain ⟨⟨hn', hrest'⟩, hf''⟩ := heq
      rw [← hn', ← hrest'] at hmem'
      rw [hf'']
      exact nodup_keys_unique hnd hmem' (lookupT_some_mem hl)
    · simp only [Prod.mk.injEq, List.cons.injEq] at heq
      rw [← heq.1.1] at hcs
      exact absurd hroot hcs
  rw [lastWrite_of_unique _ hmem huniq]
  rfl

theorem export_lookup_skills (s : Syncer) (live : LiveTree)
    (hnd : (live.map Prod.fst).Nodup) (q : RPath) (f : SFile)
    (hl : lookupT live (.skills q) = some f) :
    lookupT (copyToRepo s live []).1 ("claude-skills" :: q) = some f := by
  have hne1 : ("claude-skills" :: q) ≠ ["auth.json.age"] := by
    intro h
    simp only [List.cons.injEq] at h
    exact absurd h.1 (by decide)
  have hne2 : ("claude-skills" :: q) ≠ ["mcp-auth.json.age"] := by
    intro h
    simp only [List.cons.injEq] at h
    exact absurd h.1 (by decide)
  rw [copyToRepo_fst_ne s live [] ("claude-skills" :: q) hne1 hne2]
  have hmem : ("claude-skills" :: q, f) ∈ exportPlainWrites live :=
    mem_exportPlainWrites.mpr (Or.inr ⟨q, f, rfl, lookupT_some_mem hl⟩)
  have huniq : ∀ f', ("claude-skills" :: q, f') ∈ exportPlainWrites live → f' = f := by
    intro f' hf'
    rcases mem_exportPlainWrites.mp hf' with ⟨n', rest', f'', heq, hroot', hmem'⟩ |
      ⟨q', f'', heq, hmem'⟩
    · simp only [Prod.mk.injEq, List.cons.injEq] at heq
      rw [← heq.1.1] at hroot'
      exact absurd hroot' (by decide)
    · simp only [Prod.mk.injEq, List.cons.injEq] at heq
      obtain ⟨⟨_, hq'⟩, hf''⟩ := heq
      rw [← hq'] at hmem'
      rw [hf'']
      exact nodup_keys_unique hnd hmem' (lookupT_some_mem hl)
  rw [lastWrite_of_unique _ hmem huniq]
  rfl

theorem importStep_conf_plain (s : Syncer) (n : String) (rest : RPath) (f : SFile)
    (hroot : n ∈ syncableRootNames)
    (hgit : ((n :: rest).dropLast).contains ".git" = false)
    (hex : shouldExclude s.cfg.exclude (joinPath (n :: rest)) = false) :
    importStep s (n :: rest) f = .plainCopy (.conf (n :: rest)) f := by
  have hne1 : (n :: rest) ≠ ["auth.json.age"] := by
    intro h
    simp only [List.cons.injEq] at h
    rw [h.1] at hroot
    revert hroot
    decide
  have hne2 : (n :: rest) ≠ ["mcp-auth.json.age"] := by
    intro h
    simp only [List.cons.injEq] at h
    rw [h.1] at hroot
    revert hroot
    decide
  have hne3 : ¬ (n :: rest).head? = some "claude-skills" := by
    simp only [List.head?_cons, Option.some.injEq]
    intro h
    rw [h] at hroot
    revert hroot
    decide
  rw [importStep.eq_def]
  rw [if_neg (by rw [hgit]; simp), if_neg (by rw [hex]; simp),
    if_neg (by simp [hne1]), if_neg (by simp [hne2]), if_neg hne3]

theorem importStep_skills_plain (s : Syncer) (q0 : String) (qrest : RPath) (f : SFile)
    (hgit : (("claude-skills" :: q0 :: qrest).dropLast).contains ".git" = false)
    (hex : shouldExclude s.cfg.exclude
      (joinPath ("claude-skills" :: q0 :: qrest)) = false) :
    importStep s ("claude-skills" :: q0 :: qrest) f =
      .plainCopy (.skills (q0 :: qrest)) f := by
  have hne1 : ("claude-skills" :: q0 :: qrest) ≠ ["auth.json.age"] := by simp
  have hne2 : ("claude-skills" :: q0 :: qrest) ≠ ["mcp-auth.json.age"] := by simp
  rw [importStep.eq_def]
  rw [if_neg (by rw [hgit]; simp), if_neg (by rw [hex]; simp),
    if_neg (by simp [hne1]), if_neg (by simp [hne2]), if_pos (by simp)]

/-- C6 (amended): export followed by import on an otherwise empty destination
reproduces every live file (content and permission bits) whose destination
is round-trippable: under a catalog root or the remapped skills root, with
no directory named .git on its path and not excluded. -/
theorem c6_roundtrip_amended (s : Syncer) (live : LiveTree) (d : Dest) (f : SFile)
    (hnd : (live.map Prod.fst).Nodup)
    (hpol : s.encryption.isSome = true ∨
      (s.cfg.includeAuth = false ∧ s.cfg.includeMcpAuth = false))
    (hl : lookupT live d = some f)
    (hrt : roundTrippable s d) :
    lookupT (copyFromRepo s (copyToRepo s live []).1 []).1 d = some f := by
  have hMnd := copyToRepo_keys_nodup s live [] (by simp)
  cases d with
  | dataAuth => exact absurd hrt (by rw [roundTrippable]; exact fun h => h)
  | dataMcpAuth => exact absurd hrt (by rw [roundTrippable]; exact fun h => h)
  | conf p =>
    obtain ⟨n, rest, rfl, hroot, hgit, hex⟩ := hrt
    have hM := export_lookup_conf s live hnd n rest f hroot hl
    obtain ⟨m1, m2, hm, hk1, hk2⟩ := mem_split_nodup (lookupT_some_mem hM) hMnd
    have hstep := importStep_conf_plain s n rest f hroot hgit hex
    have hcond1 : ∀ e ∈ m1,
        (∀ g, importStep s e.1 e.2 ≠ .plainCopy (.conf (n :: rest)) g) ∧
        (∀ c, importStep s e.1 e.2 ≠ .decryptWrite (.conf (n :: rest)) c) ∧
        (∀ er, importStep s e.1 e.2 ≠ .err er) := by
      intro e he
      refine ⟨fun g hcp => ?_, fun c hdw => ?_, fun er => importStep_no_err hpol⟩
      · rcases (importStep_plainCopy_shape hcp).2 with hd | ⟨q, hpq, hd⟩
        · injection hd with h'
          exact hk1 e he h'.symm
        · exact absurd hd (by simp)
      · rcases importStep_decryptWrite_shape hdw with ⟨hd, _, _, _⟩ | ⟨hd, _, _, _⟩ <;>
          exact absurd hd.symm (by simp)
    have hcond2 : ∀ e ∈ m2,
        (∀ g, importStep s e.1 e.2 ≠ .plainCopy (.conf (n :: rest)) g) ∧
        (∀ c, importStep s e.1 e.2 ≠ .decryptWrite (.conf (n :: rest)) c) := by
      intro e he
      refine ⟨fun g hcp => ?_, fun c hdw => ?_⟩
      · rcases (importStep_plainCopy_shape hcp).2 with hd | ⟨q, hpq, hd⟩
        · injection hd with h'
          exact hk2 e he h'.symm
        · exact absurd hd (by simp)
      · rcases importStep_decryptWrite_shape hdw with ⟨hd, _, _, _⟩ | ⟨hd, _, _, _⟩ <;>
          exact absurd hd.symm (by simp)
    rw [hm]
    exact (fold_lookup_target s (.conf (n :: rest)) m1 m2 (n :: rest) f []
      hcond1 hcond2).1 f hstep
  | skills q =>
    obtain ⟨hq, hgit, hex⟩ := hrt
    match q, hq with
    | q0 :: qrest, _ =>
      have hM := export_lookup_skills s live hnd (q0 :: qrest) f hl
      obtain ⟨m1, m2, hm, hk1, hk2⟩ := mem_split_nodup (lookupT_some_mem hM) hMnd
      have hstep := importStep_skills_plain s q0 qrest f hgit hex
      have hcond1 : ∀ e ∈ m1,
          (∀ g, importStep s e.1 e.2 ≠ .plainCopy (.skills (q0 :: qrest)) g) ∧
          (∀ c, importStep s e.1 e.2 ≠ .decryptWrite (.skills (q0 :: qrest)) c) ∧
          (∀ er, importStep s e.1 e.2 ≠ .err er) := by
        intro e he
        refine ⟨fun g hcp => ?_, fun c hdw => ?_, fun er => importStep_no_err hpol⟩
        · rcases (importStep_plainCopy_shape hcp).2 with hd | ⟨q', hpq, hne', hd⟩
          · exact absurd hd (by simp)
          · injection hd with h'
            rw [← h'] at hpq
            exact hk1 e he hpq
        · rcases importStep_decryptWrite_shape hdw with ⟨hd, _, _, _⟩ | ⟨hd, _, _, _⟩ <;>
            exact absurd hd.symm (by simp)
      have hcond2 : ∀ e ∈ m2,
          (∀ g, importStep s e.1 e.2 ≠ .plainCopy (.skills (q0 :: qrest)) g) ∧
          (∀ c, importStep s e.1 e.2 ≠ .decryptWrite (.skills (q0 :: qrest)) c) := by
        intro e he
        refine ⟨fun g hcp => ?_, fun c hdw => ?_⟩
        · rcases (importStep_plainCopy_shape hcp).2 with hd | ⟨q', hpq, hne', hd⟩
          · exact absurd hd (by simp)
          · injection hd with h'
            rw [← h'] at hpq
            exact hk2 e he hpq
        · rcases importStep_decryptWrite_shape hdw with ⟨hd, _, _, _⟩ | ⟨hd, _, _, _⟩ <;>
            exact absurd hd.symm (by simp)
      rw [hm]
      exact (fold_lookup_target s (.skills (q0 :: qrest)) m1 m2
        ("claude-skills" :: q0 :: qrest) f [] hcond1 hcond2).1 f hstep

/-- C6 counterexample: a live file inside a directory named .git under a
catalog root exports to the mirror but is pruned by the import walk, so the
round trip loses it although it is neither sensitive nor excluded. -/
theorem c6_counterexample :
    shouldExclude [] "agent/.git/x.json" = false ∧
    lookupT [(Dest.conf ["agent", ".git", "x.json"], ⟨"x", 420⟩)]
      (Dest.conf ["agent", ".git", "x.json"]) = some ⟨"x", 420⟩ ∧
    lookupT (copyToRepo ⟨⟨false, false, []⟩, none⟩
      [(Dest.conf ["agent", ".git", "x.json"], ⟨"x", 420⟩)] []).1
      ["agent", ".git", "x.json"] = some ⟨"x", 420⟩ ∧
    lookupT (copyFromRepo ⟨⟨false, false, []⟩, none⟩
      (copyToRepo ⟨⟨false, false, []⟩, none⟩
        [(Dest.conf ["agent", ".git", "x.json"], ⟨"x", 420⟩)] []).1 []).1
      (Dest.conf ["agent", ".git", "x.json"]) = none := by decide

/-- C6 witness: a concrete round trip of a config file and a remapped skills
file through an empty mirror and an empty destination tree reproduces both
contents and modes. -/
theorem c6_witness :
    lookupT (copyFromRepo ⟨⟨false, false, []⟩, none⟩
      (copyToRepo ⟨⟨false, false, []⟩, none⟩
        [(Dest.conf ["agent", "a.json"], ⟨"{}", 420⟩),
         (Dest.skills ["s", "SKILL.md"], ⟨"sk", 493⟩)] []).1 []).1
      (Dest.conf ["agent", "a.json"]) = some ⟨"{}", 420⟩ ∧
    lookupT (copyFromRepo ⟨⟨false, false, []⟩, none⟩
      (copyToRepo ⟨⟨false, false, []⟩, none⟩
        [(Dest.conf ["agent", "a.json"], ⟨"{}", 420⟩),
         (Dest.skills ["s", "SKILL.md"], ⟨"sk", 493⟩)] []).1 []).1
      (Dest.skills ["s", "SKILL.md"]) = some ⟨"sk", 493⟩ :=
  ⟨c6_roundtrip_amended ⟨⟨false, false, []⟩, none⟩
    [(Dest.conf ["agent", "a.json"], ⟨"{}", 420⟩),
     (Dest.skills ["s", "SKILL.md"], ⟨"sk", 493⟩)]
    (Dest.conf ["agent", "a.json"]) ⟨"{}", 420⟩ (by decide)
    (Or.inr ⟨rfl, rfl⟩) rfl ⟨"agent", ["a.json"], rfl, by decide, rfl, by decide⟩,
   c6_roundtrip_amended ⟨⟨false, false, []⟩, none⟩
    [(Dest.conf ["agent", "a.json"], ⟨"{}", 420⟩),
     (Dest.skills ["s", "SKILL.md"], ⟨"sk", 493⟩)]
    (Dest.skills ["s", "SKILL.md"]) ⟨"sk", 493⟩ (by decide)
    (Or.inr ⟨rfl, rfl⟩) rfl ⟨by decide, rfl, by decide⟩⟩
